import Mathlib

/-!
Verification development for the personal-hub ingestion and reconciliation
engine (`api/collectors/base.py`, `api/collectors/example_health.py`,
`api/models.py`).

The Python code is shallowly embedded as executable Lean definitions:

* Python dicts feeding `upsert_items` become `RawItem` records whose
  possibly-absent dict keys are `Option` fields.
* The PostgreSQL table `data_items` (unique index on `(source, source_id)`)
  becomes a `List Row`; `INSERT ... ON CONFLICT DO UPDATE` becomes the
  function `applyOne`.  Statement execution without a commit has no durable
  effect, so a failed call returns only the error and the caller keeps the
  pre-call store, matching the commit-at-end structure of the Python code.
* Timestamps produced by `now()` are abstracted as a `Nat` parameter threaded
  into each write.
* `datetime.fromisoformat` is modelled on the core ISO-8601 grammar
  `YYYY-MM-DD[THH[:MM[:SS]][(+|-)HH:MM]]` that the collectors exercise
  (fractional seconds and non-`T` separators are outside the modelled
  grammar); scalar JSON payload values are modelled as optional integers.
-/

namespace PersonalHub

/-- One health-metric dict as delivered by the webhook payload.  Every field
is optional because the Python code reads each one with `dict.get`. -/
structure Metric where
  mtype : Option String
  value : Option Int
  munit : Option String
  mdate : Option String
  mdevice : Option String
deriving DecidableEq

/-- A value inside an opaque structured document (the JSONB `metadata`
column).  The engine never interprets these values, it only stores them. -/
inductive DocV where
  | s (v : String)
  | i (v : Option Int)
  | m (v : Metric)
deriving DecidableEq

/-- Opaque structured document (JSONB), e.g. `metadata` and `cursor`. -/
abbrev Doc := List (String × DocV)

/-- Result of Python `datetime.fromisoformat`: a wall-clock datetime plus an
optional UTC offset in minutes (`none` = naive datetime). -/
structure PyDateTime where
  year : Nat
  month : Nat
  day : Nat
  hour : Nat
  minute : Nat
  second : Nat
  tzOffsetMinutes : Option Int
deriving DecidableEq

/-- Python string slicing `s[:n]` (strings are sequences of code points). -/
def pyTruncate (s : String) (n : Nat) : String :=
  String.mk (s.data.take n)

/-- Python `str.replace("Z", "+00:00")`: every occurrence of the single
character `Z` is replaced by the string `+00:00`. -/
def replaceZ (s : String) : String :=
  String.mk (s.data.foldr (fun c acc => if c = 'Z' then ('+' :: '0' :: '0' :: ':' :: '0' :: '0' :: acc) else c :: acc) [])

/-- Python `"T" in date_str`. -/
def hasT (s : String) : Bool :=
  s.data.any (fun c => c = 'T')

/-- Python `str(value)` for the optional scalar in an f-string. -/
def pyStr : Option Int → String
  | none => "None"
  | some n => toString n

def digitVal : Char → Option Nat
  | c => if c.isDigit then some (c.toNat - 48) else none

/-- Read exactly two decimal digits. -/
def read2 : List Char → Option (Nat × List Char)
  | a :: b :: rest =>
    match digitVal a, digitVal b with
    | some x, some y => some (x * 10 + y, rest)
    | _, _ => none
  | _ => none

/-- Read exactly four decimal digits. -/
def read4 : List Char → Option (Nat × List Char)
  | a :: b :: c :: d :: rest =>
    match digitVal a, digitVal b, digitVal c, digitVal d with
    | some x, some y, some z, some w => some (((x * 10 + y) * 10 + z) * 10 + w, rest)
    | _, _, _, _ => none
  | _ => none

def expectChar (c : Char) : List Char → Option (List Char)
  | x :: rest => if x = c then some rest else none
  | [] => none

def isLeap (y : Nat) : Bool :=
  (y % 4 = 0 && y % 100 ≠ 0) || y % 400 = 0

def daysInMonth (y m : Nat) : Nat :=
  if m = 2 then (if isLeap y then 29 else 28)
  else if m = 4 ∨ m = 6 ∨ m = 9 ∨ m = 11 then 30
  else 31

def validDate (y m d : Nat) : Bool :=
  1 ≤ y && 1 ≤ m && m ≤ 12 && 1 ≤ d && d ≤ daysInMonth y m

/-- Parse `YYYY-MM-DD` including calendar validation. -/
def readDate (cs : List Char) : Option (Nat × Nat × Nat × List Char) :=
  (read4 cs).bind fun yr =>
  (expectChar '-' yr.2).bind fun r2 =>
  (read2 r2).bind fun mr =>
  (expectChar '-' mr.2).bind fun r4 =>
  (read2 r4).bind fun dr =>
  if validDate yr.1 mr.1 dr.1 then some (yr.1, mr.1, dr.1, dr.2) else none

/-- Parse `HH[:MM[:SS]]` with range validation. -/
def readTime (cs : List Char) : Option (Nat × Nat × Nat × List Char) :=
  match read2 cs with
  | none => none
  | some (h, r1) =>
    if h ≥ 24 then none else
    match expectChar ':' r1 with
    | none => some (h, 0, 0, r1)
    | some r2 =>
      match read2 r2 with
      | none => none
      | some (mi, r3) =>
        if mi ≥ 60 then none else
        match expectChar ':' r3 with
        | none => some (h, mi, 0, r3)
        | some r4 =>
          match read2 r4 with
          | none => none
          | some (sec, r5) => if sec ≥ 60 then none else some (h, mi, sec, r5)

/-- Parse an optional trailing `(+|-)HH:MM` offset; the whole remainder must
be consumed. -/
def readOffset (cs : List Char) : Option (Option Int) :=
  match cs with
  | [] => some none
  | sign :: r1 =>
    if sign = '+' ∨ sign = '-' then
      match read2 r1 with
      | none => none
      | some (oh, r2) =>
        if oh ≥ 24 then none else
        match expectChar ':' r2 with
        | none => none
        | some r3 =>
          match read2 r3 with
          | none => none
          | some (om, r4) =>
            if om ≥ 60 then none else
            match r4 with
            | [] =>
              let mins : Int := (oh * 60 + om : Nat)
              some (some (if sign = '-' then -mins else mins))
            | _ => none
    else none

/-- Model of Python `datetime.fromisoformat` on the grammar
`YYYY-MM-DD[THH[:MM[:SS]][(+|-)HH:MM]]`. -/
def fromisoformat (s : String) : Option PyDateTime :=
  (readDate s.data).bind fun ymd =>
  match ymd.2.2.2 with
  | [] => some ⟨ymd.1, ymd.2.1, ymd.2.2.1, 0, 0, 0, none⟩
  | 'T' :: r1 =>
    (readTime r1).bind fun hms =>
    (readOffset hms.2.2.2).bind fun off =>
    some ⟨ymd.1, ymd.2.1, ymd.2.2.1, hms.1, hms.2.1, hms.2.2.1, off⟩
  | _ => none

/-- Key of the unique index on `data_items`: `(source, source_id)`. -/
abbrev Key := String × String

/-- An input record for `upsert_items` / the canonical record the engine
consumes.  Fields that are `NOT NULL` columns of `data_items` are `Option`
here because the Python dict may simply lack the key; `synced_at` is `Option`
because callers normally omit it, in which case the column's server default
`now()` applies on insert. -/
structure RawItem where
  source : Option String
  source_id : Option String
  category : Option String
  item_type : Option String
  title : Option String
  content : Option String
  metadata : Doc
  tags : List String
  is_public : Bool
  source_url : Option String
  created_at : Option PyDateTime
  synced_at : Option Nat
deriving DecidableEq

/-- A stored row of `data_items` (the generated surrogate `id` column is
never consulted by the engine and is omitted). -/
structure Row where
  source : String
  source_id : String
  category : String
  item_type : String
  title : Option String
  content : Option String
  metadata : Doc
  tags : List String
  is_public : Bool
  source_url : Option String
  created_at : PyDateTime
  synced_at : Nat
deriving DecidableEq

abbrev Store := List Row

/-- A fully-resolved row candidate: form that a `VALUES` tuple takes once all
`NOT NULL` columns are known present. -/
structure PreRow where
  source : String
  source_id : String
  category : String
  item_type : String
  title : Option String
  content : Option String
  metadata : Doc
  tags : List String
  is_public : Bool
  source_url : Option String
  created_at : PyDateTime
  synced_at : Option Nat
deriving DecidableEq

def rowKey (r : Row) : Key := (r.source, r.source_id)

def keyOf (p : PreRow) : Key := (p.source, p.source_id)

/-- `key = (item["source"], item["source_id"])`: raises `KeyError` (modelled
as `none`) when either dict key is absent. -/
def itemKey (it : RawItem) : Option Key :=
  match it.source, it.source_id with
  | some a, some b => some (a, b)
  | _, _ => none

/-- Resolution of one `VALUES` tuple: PostgreSQL rejects the tuple with a
NOT NULL violation when any required column is absent. -/
def toPre (it : RawItem) : Option PreRow :=
  match it.source, it.source_id, it.category, it.item_type, it.created_at with
  | some s, some sid, some c, some ty, some ca =>
    some { source := s, source_id := sid, category := c, item_type := ty,
           title := it.title, content := it.content, metadata := it.metadata,
           tags := it.tags, is_public := it.is_public, source_url := it.source_url,
           created_at := ca, synced_at := it.synced_at }
  | _, _, _, _, _ => none

def resolveAll : List RawItem → Option (List PreRow)
  | [] => some []
  | it :: rest =>
    match toPre it, resolveAll rest with
    | some p, some ps => some (p :: ps)
    | _, _ => none

/-- The `ON CONFLICT DO UPDATE` field list of `upsert_items`: `title`,
`content`, `metadata`, `tags`, `is_public`, `source_url`, `created_at` are
replaced from the excluded tuple and `synced_at` is set to `now()`;
`category` and `item_type` are left as stored. -/
def updRow (now : Nat) (p : PreRow) (r : Row) : Row :=
  { r with title := p.title, content := p.content, metadata := p.metadata,
           tags := p.tags, is_public := p.is_public, source_url := p.source_url,
           created_at := p.created_at, synced_at := now }

/-- A fresh insert: every column comes from the tuple; an absent `synced_at`
takes the column's server default `now()`. -/
def newRow (now : Nat) (p : PreRow) : Row :=
  { source := p.source, source_id := p.source_id, category := p.category,
    item_type := p.item_type, title := p.title, content := p.content,
    metadata := p.metadata, tags := p.tags, is_public := p.is_public,
    source_url := p.source_url, created_at := p.created_at,
    synced_at := p.synced_at.getD now }

/-- `INSERT ... ON CONFLICT (source, source_id) DO UPDATE` for one tuple
against the table. -/
def applyOne (now : Nat) (store : Store) (p : PreRow) : Store :=
  if store.any (fun r => rowKey r = keyOf p) then
    store.map (fun r => if rowKey r = keyOf p then updRow now p r else r)
  else
    store ++ [newRow now p]

inductive UErr where
  | keyError
  | notNull
deriving DecidableEq

/-- Result of one `upsert_items` call: the `Except` value is what the caller
observes (committed store and return value, or the raised error with the
store unchanged because nothing was committed), and `execs` counts how many
`session.execute` round trips to the store were performed. -/
structure UpsertResult where
  result : Except UErr (Store × Nat)
  execs : Nat

/-- Python dict assignment `seen[key] = item`: dicts keep the insertion
position of the first occurrence of a key and overwrite its value; a new key
is appended at the end. -/
def assocPut : List (Key × RawItem) → Key → RawItem → List (Key × RawItem)
  | [], k, v => [(k, v)]
  | q :: rest, k, v => if q.1 = k then (k, v) :: rest else q :: assocPut rest k v

/-- The dedup loop of `upsert_items`: `for item in items: seen[(item["source"],
item["source_id"])] = item`, raising `KeyError` on a missing identity key. -/
def dedupLoop : List (Key × RawItem) → List RawItem → Except UErr (List (Key × RawItem))
  | m, [] => .ok m
  | m, it :: rest =>
    match itemKey it with
    | none => .error .keyError
    | some k => dedupLoop (assocPut m k it) rest

/-- `range(0, len(db_items), batch_size)` slicing, as structural recursion
with a countdown of the remaining chunk capacity. -/
def chunkAux (n : Nat) : List α → Nat → List α → List (List α)
  | [], _, acc => if acc.isEmpty then [] else [acc.reverse]
  | x :: xs, 0, acc => acc.reverse :: chunkAux n xs (n - 1) [x]
  | x :: xs, k + 1, acc => chunkAux n xs k (x :: acc)

def chunkList (n : Nat) (l : List α) : List (List α) :=
  chunkAux n l n []

/-- The batched execute loop: one `session.execute` per chunk.  A chunk whose
tuples violate a NOT NULL constraint makes that execute fail; no commit has
happened, so nothing of the call is durable. -/
def chunkLoop (now : Nat) : Store → List (List RawItem) → Nat → (Except UErr Store) × Nat
  | store, [], execs => (.ok store, execs)
  | store, c :: cs, execs =>
    match resolveAll c with
    | none => (.error .notNull, execs + 1)
    | some ps => chunkLoop now (ps.foldl (applyOne now) store) cs (execs + 1)

/-- `BaseCollector.upsert_items`.  The `metadata_ -> metadata` key renaming of
the Python code is nominal (our field is already called `metadata`). -/
def upsert_items (now : Nat) (store : Store) (items : List RawItem) : UpsertResult :=
  if items.isEmpty then ⟨.ok (store, 0), 0⟩
  else
    match dedupLoop [] items with
    | .error e => ⟨.error e, 0⟩
    | .ok seen =>
      let db_items := seen.map (fun p => p.2)
      match chunkLoop now store (chunkList 2000 db_items) 0 with
      | (.error e, ex) => ⟨.error e, ex⟩
      | (.ok store2, ex) => ⟨.ok (store2, items.length), ex⟩

/-- One row of the `sync_state` table. -/
structure SyncRow where
  source : String
  last_sync_at : Nat
  next_sync_at : Option Nat
  cursor : Doc
  status : String
  error_message : Option String
  items_synced : Nat
deriving DecidableEq

/-- `BaseCollector.update_sync_state` acting on this collector's row of
`sync_state` (`st = none` models the absence of a row for the source).
Python keyword defaults (`status="idle"`, `error=None`, `items_synced=0`,
`cursor=None`) are passed explicitly by the callers below. -/
def update_sync_state (now : Nat) (st : Option SyncRow) (source : String)
    (status : String) (error : Option String) (items_synced : Nat)
    (cursor : Option Doc) : SyncRow :=
  match st with
  | none =>
    { source := source, last_sync_at := now, next_sync_at := none,
      cursor := cursor.getD [], status := status, error_message := error,
      items_synced := items_synced }
  | some r =>
    { r with last_sync_at := now, status := status, error_message := error,
             items_synced := items_synced,
             cursor := match cursor with | some c => c | none => r.cursor }

/-- `BaseCollector.get_cursor`: the stored cursor, or an empty document when
the source has no row (`row or {}` also maps an empty stored cursor to `{}`,
which coincides with returning it unchanged). -/
def get_cursor (st : Option SyncRow) : Doc :=
  match st with
  | none => []
  | some r => r.cursor

/-- Combined observable state: the `data_items` table plus this collector's
`sync_state` row. -/
structure FullState where
  data : Store
  sync : Option SyncRow
deriving DecidableEq

/-- A collector's `collect`: it may read and write the session state and
either return an item count or raise.  A raised exception carries the state
as durably committed at the moment of the raise together with `str(e)`. -/
abbrev CollectFn := FullState → Except (FullState × String) (FullState × Nat)

/-- `BaseCollector.run`: mark the source running, invoke `collect`, then
record the outcome.  The function is total: an exception from `collect` is
absorbed and recorded, never re-raised to the caller.  `t0` and `t1` are the
wall-clock times of the two sync-state writes. -/
def run (collect : CollectFn) (src : String) (t0 t1 : Nat) (st : FullState) : FullState :=
  let st1 : FullState := { st with sync := some (update_sync_state t0 st.sync src "running" none 0 none) }
  match collect st1 with
  | .ok (st2, count) =>
    { st2 with sync := some (update_sync_state t1 st2.sync src "idle" none count none) }
  | .error (st2, e) =>
    { st2 with sync := some (update_sync_state t1 st2.sync src "error" (some (pyTruncate e 500)) 0 none) }

/-- `HealthWebhookCollector.process_webhook_data`, date-parsing step for one
metric: branch on `"T" in date_str`, replace a trailing `Z`, or normalize a
date-only string to midnight UTC; `metric.get("date", "")` yields `""` for a
missing key, which fails to parse. -/
def parseMetricDate (metric : Metric) : Option PyDateTime :=
  let date_str := metric.mdate.getD ""
  if hasT date_str then fromisoformat (replaceZ date_str)
  else fromisoformat (date_str ++ "T00:00:00+00:00")

def pad2 (n : Nat) : String :=
  if n < 10 then "0" ++ toString n else toString n

def pad4 (n : Nat) : String :=
  if n < 10 then "000" ++ toString n
  else if n < 100 then "00" ++ toString n
  else if n < 1000 then "0" ++ toString n
  else toString n

/-- `created_at.strftime("%Y%m%d-%H%M")`. -/
def strftimeYmdHM (dt : PyDateTime) : String :=
  pad4 dt.year ++ pad2 dt.month ++ pad2 dt.day ++ "-" ++ pad2 dt.hour ++ pad2 dt.minute

/-- The canonical record built for one successfully parsed webhook metric. -/
def metricItem (metric : Metric) (created_at : PyDateTime) : RawItem :=
  let metric_type := metric.mtype.getD "Unknown"
  let value := metric.value
  let u := metric.munit.getD ""
  { source := some "health-webhook",
    source_id := some (metric_type.toLower ++ "-" ++ strftimeYmdHM created_at),
    category := some "health",
    item_type := some metric_type.toLower,
    title := some (metric_type ++ ": " ++ pyStr value ++ " " ++ u),
    content := none,
    metadata := [("value", .i value), ("unit", .s u), ("type", .s metric_type),
                 ("device", .s (metric.mdevice.getD "Unknown")), ("raw", .m metric)],
    tags := ["health", "webhook", metric_type.toLower],
    is_public := false,
    source_url := none,
    created_at := some created_at,
    synced_at := none }

/-- The normalization loop of `process_webhook_data`: a metric whose date
fails to parse is skipped (`continue`), all others become items in order. -/
def buildWebhookItems : List Metric → List RawItem
  | [] => []
  | metric :: rest =>
    match parseMetricDate metric with
    | none => buildWebhookItems rest
    | some dt => metricItem metric dt :: buildWebhookItems rest

/-- `HealthWebhookCollector.process_webhook_data`: normalize the batch, then
route it through `upsert_items`; the returned count is whatever
`upsert_items` returns. -/
def process_webhook_data (now : Nat) (store : Store) (metrics : List Metric) : UpsertResult :=
  upsert_items now store (buildWebhookItems metrics)

/-- The count observable by the webhook caller (`none` when the upsert call
raised). -/
def resultCount (u : UpsertResult) : Option Nat :=
  match u.result with
  | .ok (_, n) => some n
  | .error _ => none

/-- A stored row with `synced_at` masked, for comparing stores up to
`synced_at`. -/
def maskSynced (r : Row) : Row :=
  { r with synced_at := 0 }

def eraseSynced (store : Store) : Store :=
  store.map maskSynced

/-- Lookup in the dedup dict. -/
def lookupA (m : List (Key × RawItem)) (K : Key) : Option RawItem :=
  (m.find? (fun q => q.1 = K)).map (fun q => q.2)

/-- The last record in a list whose identity key is `K`. -/
def lastItemFor (K : Key) : List RawItem → Option RawItem
  | [] => none
  | it :: rest =>
    match lastItemFor K rest with
    | some v => some v
    | none => if itemKey it = some K then some it else none

/-- The per-row effect of one batch on an already-stored row. -/
def patchFn (now : Nat) (ps : List PreRow) (r : Row) : Row :=
  match ps.find? (fun p => keyOf p = rowKey r) with
  | some p => updRow now p r
  | none => r

/-- The tuples of a batch whose key is not yet present in the store. -/
def freshOnes (store : Store) (ps : List PreRow) : List PreRow :=
  ps.filter (fun p => !(store.any (fun r => rowKey r = keyOf p)))

/-! ### Fixed inputs used as concrete instances -/

/-- A well-formed input record (all identity and NOT NULL fields present). -/
def sampleItem (t : String) : RawItem :=
  { source := some "svc", source_id := some "id1", category := some "health",
    item_type := some "metric", title := some t, content := none, metadata := [],
    tags := [], is_public := false, source_url := none,
    created_at := some ⟨2026, 2, 21, 0, 0, 0, some 0⟩, synced_at := none }

/-- The row `sampleItem t` produces on a fresh insert at write time `syncT`. -/
def sampleRow (t : String) (syncT : Nat) : Row :=
  { source := "svc", source_id := "id1", category := "health",
    item_type := "metric", title := some t, content := none, metadata := [],
    tags := [], is_public := false, source_url := none,
    created_at := ⟨2026, 2, 21, 0, 0, 0, some 0⟩, synced_at := syncT }

/-- A record that carries a client-supplied `synced_at` value. -/
def clientSyncedItem : RawItem :=
  { sampleItem "A" with synced_at := some 5 }

/-- A record with both identity fields but no `category` (a required NOT NULL
column of `data_items`). -/
def noCategoryItem : RawItem :=
  { sampleItem "A" with category := none }

/-- A collector whose `collect` always raises with message `boom`. -/
def collectBoom : CollectFn := fun s => .error (s, "boom")

/-- A pre-existing sync-state row recording 7 items synced by the last run. -/
def syncRow7 : SyncRow :=
  { source := "svc", last_sync_at := 0, next_sync_at := none, cursor := [],
    status := "idle", error_message := none, items_synced := 7 }

def st7 : FullState := { data := [], sync := some syncRow7 }

/-- The committed store of an upsert call, when it succeeded. -/
def okStore (u : UpsertResult) : Option Store :=
  match u.result with
  | .ok (s, _) => some s
  | .error _ => none

/-- A record missing its `source` identity field. -/
def noSourceItem : RawItem :=
  { sampleItem "A" with source := none }

/-- A metric whose date cannot be parsed. -/
def badMetric : Metric :=
  { mtype := some "X", value := some 1, munit := some "u",
    mdate := some "not-a-date", mdevice := some "d" }

/-- A metric with a parseable date-only date. -/
def goodMetric : Metric :=
  { mtype := some "StepCount", value := some 8542, munit := some "count",
    mdate := some "2026-02-21", mdevice := some "iPhone" }

/-- A state with no data and no sync row yet. -/
def stEmpty : FullState := { data := [], sync := none }

/-- The state `run` hands to `collect` for `st7` at time 1. -/
def runningSt7 : FullState :=
  { st7 with sync := some (update_sync_state 1 st7.sync "svc" "running" none 0 none) }

/-- The state `run` hands to `collect` for `stEmpty` at time 3. -/
def runningStEmpty : FullState :=
  { stEmpty with sync := some (update_sync_state 3 stEmpty.sync "svc" "running" none 0 none) }


/-! ### Small facts about rows and tuples -/

theorem rowKey_updRow (now : Nat) (p : PreRow) (r : Row) :
    rowKey (updRow now p r) = rowKey r := rfl

theorem rowKey_newRow (now : Nat) (p : PreRow) :
    rowKey (newRow now p) = keyOf p := rfl

theorem toPre_key {it : RawItem} {p : PreRow} (h : toPre it = some p) :
    itemKey it = some (keyOf p) := by
  unfold toPre at h
  rcases hs : it.source with _ | s <;> rcases hsid : it.source_id with _ | sid <;>
    rcases hc : it.category with _ | c <;> rcases hty : it.item_type with _ | ty <;>
    rcases hca : it.created_at with _ | ca <;>
    simp [hs, hsid, hc, hty, hca] at h <;>
    simp [itemKey, hs, hsid, keyOf, ← h]

theorem toPre_fields {it : RawItem} {p : PreRow} (h : toPre it = some p) :
    p.title = it.title ∧ p.content = it.content ∧ p.metadata = it.metadata ∧
    p.tags = it.tags ∧ p.is_public = it.is_public ∧ p.source_url = it.source_url ∧
    some p.created_at = it.created_at ∧ p.synced_at = it.synced_at := by
  unfold toPre at h
  rcases hs : it.source with _ | s <;> rcases hsid : it.source_id with _ | sid <;>
    rcases hc : it.category with _ | c <;> rcases hty : it.item_type with _ | ty <;>
    rcases hca : it.created_at with _ | ca <;>
    simp [hs, hsid, hc, hty, hca] at h <;>
    simp [hca, ← h]

theorem toPre_isSome_of_itemKey {it : RawItem} {p : PreRow} (h : toPre it = some p) :
    (itemKey it).isSome := by
  rw [toPre_key h]; rfl

/-! ### The dedup dict -/

theorem lookupA_assocPut_self (m : List (Key × RawItem)) (k : Key) (v : RawItem) :
    lookupA (assocPut m k v) k = some v := by
  induction m with
  | nil => simp [assocPut, lookupA]
  | cons q rest ih =>
    by_cases h : q.1 = k
    · simp [assocPut, h, lookupA]
    · simpa [assocPut, h, lookupA] using ih

theorem lookupA_assocPut_ne (m : List (Key × RawItem)) {k K : Key} (v : RawItem)
    (hne : K ≠ k) : lookupA (assocPut m k v) K = lookupA m K := by
  induction m with
  | nil => simp [assocPut, lookupA, Ne.symm hne]
  | cons q rest ih =>
    by_cases h : q.1 = k
    · simp [assocPut, h, lookupA, Ne.symm hne, h.symm ▸ (Ne.symm hne)]
    · by_cases h2 : q.1 = K
      · simp [assocPut, h, lookupA, h2, hne]
      · simpa [assocPut, h, lookupA, h2] using ih

theorem keys_assocPut (m : List (Key × RawItem)) (k : Key) (v : RawItem) :
    (assocPut m k v).map (fun q => q.1) =
      (if m.any (fun q => q.1 = k) then m.map (fun q => q.1)
       else m.map (fun q => q.1) ++ [k]) := by
  induction m with
  | nil => simp [assocPut]
  | cons q rest ih =>
    by_cases h : q.1 = k
    · simp [assocPut, h]
    · simp only [assocPut, if_neg h, List.map_cons, List.any_cons, ih]
      by_cases h2 : rest.any (fun q => q.1 = k)
      · simp [h, h2]
      · simp [h, h2]

theorem keysNodup_assocPut {m : List (Key × RawItem)} (k : Key) (v : RawItem)
    (h : (m.map (fun q => q.1)).Nodup) :
    ((assocPut m k v).map (fun q => q.1)).Nodup := by
  rw [keys_assocPut]
  by_cases hin : m.any (fun q => q.1 = k)
  · simpa [hin] using h
  · rw [if_neg hin]
    rw [List.nodup_append]
    refine ⟨h, List.nodup_singleton k, ?_⟩
    intro a ha hb
    simp only [List.mem_singleton] at hb
    subst hb
    rcases List.mem_map.mp ha with ⟨q, hq, hqa⟩
    have : m.any (fun q => q.1 = a) := List.any_eq_true.mpr ⟨q, hq, by simp [hqa]⟩
    exact hin this

theorem mem_assocPut {m : List (Key × RawItem)} {k : Key} {v : RawItem}
    {q : Key × RawItem} (h : q ∈ assocPut m k v) : q ∈ m ∨ q = (k, v) := by
  induction m with
  | nil => simp [assocPut] at h; simp [h]
  | cons q0 rest ih =>
    by_cases h0 : q0.1 = k
    · simp only [assocPut, if_pos h0, List.mem_cons] at h
      rcases h with h | h
      · right; exact h
      · left; simp [h]
    · simp only [assocPut, if_neg h0, List.mem_cons] at h
      rcases h with h | h
      · left; simp [h]
      · rcases ih h with h1 | h1
        · left; simp [h1]
        · right; exact h1

/-! ### The dedup loop -/

theorem dedupLoop_lookup {items : List RawItem} :
    ∀ {m m' : List (Key × RawItem)}, dedupLoop m items = .ok m' →
    ∀ K, lookupA m' K = (lastItemFor K items).or (lookupA m K) := by
  induction items with
  | nil =>
    intro m m' h K
    simp only [dedupLoop] at h
    cases h
    simp [lastItemFor]
  | cons it rest ih =>
    intro m m' h K
    simp only [dedupLoop] at h
    rcases hk : itemKey it with _ | k
    · simp [hk] at h
    · rw [hk] at h
      have := ih h K
      rw [this]
      by_cases hK : K = k
      · subst hK
        rw [lookupA_assocPut_self]
        simp only [lastItemFor, hk]
        rcases hrest : lastItemFor K rest with _ | v
        · simp
        · simp
      · rw [lookupA_assocPut_ne _ _ hK]
        simp only [lastItemFor, hk]
        rcases hrest : lastItemFor K rest with _ | v
        · have : ¬ ((k : Key) = K) := fun hc => hK hc.symm
          simp [this]
        · simp

theorem dedupLoop_keysNodup {items : List RawItem} :
    ∀ {m m' : List (Key × RawItem)}, dedupLoop m items = .ok m' →
    (m.map (fun q => q.1)).Nodup → (m'.map (fun q => q.1)).Nodup := by
  induction items with
  | nil =>
    intro m m' h hm
    simp only [dedupLoop] at h
    cases h; exact hm
  | cons it rest ih =>
    intro m m' h hm
    simp only [dedupLoop] at h
    rcases hk : itemKey it with _ | k
    · simp [hk] at h
    · rw [hk] at h
      exact ih h (keysNodup_assocPut k it hm)

theorem dedupLoop_consistent {items : List RawItem} :
    ∀ {m m' : List (Key × RawItem)}, dedupLoop m items = .ok m' →
    (∀ q ∈ m, itemKey q.2 = some q.1) → ∀ q ∈ m', itemKey q.2 = some q.1 := by
  induction items with
  | nil =>
    intro m m' h hm
    simp only [dedupLoop] at h
    cases h; exact hm
  | cons it rest ih =>
    intro m m' h hm
    simp only [dedupLoop] at h
    rcases hk : itemKey it with _ | k
    · simp [hk] at h
    · rw [hk] at h
      refine ih h ?_
      intro q hq
      rcases mem_assocPut hq with h1 | h1
      · exact hm q h1
      · subst h1; exact hk

theorem dedupLoop_values {items : List RawItem} :
    ∀ {m m' : List (Key × RawItem)}, dedupLoop m items = .ok m' →
    ∀ q ∈ m', q ∈ m ∨ q.2 ∈ items := by
  induction items with
  | nil =>
    intro m m' h q hq
    simp only [dedupLoop] at h
    cases h; exact Or.inl hq
  | cons it rest ih =>
    intro m m' h q hq
    simp only [dedupLoop] at h
    rcases hk : itemKey it with _ | k
    · simp [hk] at h
    · rw [hk] at h
      rcases ih h q hq with h1 | h1
      · rcases mem_assocPut h1 with h2 | h2
        · exact Or.inl h2
        · right; subst h2; simp
      · right; simp [h1]

theorem dedupLoop_isSome {items : List RawItem} :
    ∀ {m m' : List (Key × RawItem)}, dedupLoop m items = .ok m' →
    ∀ it ∈ items, (itemKey it).isSome := by
  induction items with
  | nil => intro m m' _ it hit; simp at hit
  | cons it0 rest ih =>
    intro m m' h it hit
    simp only [dedupLoop] at h
    rcases hk : itemKey it0 with _ | k
    · simp [hk] at h
    · rw [hk] at h
      rcases List.mem_cons.mp hit with h1 | h1
      · subst h1; simp [hk]
      · exact ih h it h1

theorem dedupLoop_total {items : List RawItem}
    (h : ∀ it ∈ items, (itemKey it).isSome) :
    ∀ m, ∃ m', dedupLoop m items = .ok m' := by
  induction items with
  | nil => intro m; exact ⟨m, rfl⟩
  | cons it rest ih =>
    intro m
    rcases Option.isSome_iff_exists.mp (h it (by simp)) with ⟨k, hk⟩
    rcases ih (fun x hx => h x (by simp [hx])) (assocPut m k it) with ⟨m', hm'⟩
    exact ⟨m', by simp [dedupLoop, hk, hm']⟩

theorem dedupLoop_error_of_missing {items : List RawItem}
    (h : ∃ it ∈ items, itemKey it = none) :
    ∀ m, dedupLoop m items = .error .keyError := by
  induction items with
  | nil => rcases h with ⟨it, hit, _⟩; simp at hit
  | cons it0 rest ih =>
    intro m
    rcases hk : itemKey it0 with _ | k
    · simp [dedupLoop, hk]
    · rcases h with ⟨it, hit, hnone⟩
      rcases List.mem_cons.mp hit with h1 | h1
      · subst h1; rw [hk] at hnone; cases hnone
      · simp only [dedupLoop, hk]
        exact ih ⟨it, h1, hnone⟩ (assocPut m k it0)

/-! ### Chunking -/

theorem chunkAux_flatten {α : Type} (n : Nat) (xs : List α) :
    ∀ (k : Nat) (acc : List α), (chunkAux n xs k acc).flatten = acc.reverse ++ xs := by
  induction xs with
  | nil =>
    intro k acc
    by_cases h : acc.isEmpty
    · have : acc = [] := List.isEmpty_iff.mp h
      simp [chunkAux, h, this]
    · simp [chunkAux, h]
  | cons x xs ih =>
    intro k acc
    match k with
    | 0 => simp [chunkAux, ih]
    | k + 1 => simp [chunkAux, ih]

theorem chunkList_flatten {α : Type} (n : Nat) (l : List α) :
    (chunkList n l).flatten = l := by
  simp [chunkList, chunkAux_flatten]

theorem chunkAux_mem {α : Type} (n : Nat) (xs : List α) :
    ∀ (k : Nat) (acc : List α) (c : List α), c ∈ chunkAux n xs k acc →
    ∀ x ∈ c, x ∈ acc ∨ x ∈ xs := by
  intro k acc c hc x hx
  have h1 : x ∈ (chunkAux n xs k acc).flatten := List.mem_flatten.mpr ⟨c, hc, hx⟩
  rw [chunkAux_flatten] at h1
  rcases List.mem_append.mp h1 with h | h
  · exact Or.inl (List.mem_reverse.mp h)
  · exact Or.inr h

/-! ### Resolution of tuples -/

theorem resolveAll_append (l1 l2 : List RawItem) :
    resolveAll (l1 ++ l2) =
      (resolveAll l1).bind (fun a => (resolveAll l2).map (fun b => a ++ b)) := by
  induction l1 with
  | nil =>
    simp only [List.nil_append, resolveAll]
    rcases resolveAll l2 with _ | b <;> simp
  | cons it rest ih =>
    simp only [List.cons_append, resolveAll, List.append_eq]
    rw [ih]
    rcases toPre it with _ | p
    · simp
    · rcases resolveAll rest with _ | a
      · simp
      · rcases resolveAll l2 with _ | b <;> simp

theorem resolveAll_total {l : List RawItem} (h : ∀ it ∈ l, (toPre it).isSome) :
    ∃ ps, resolveAll l = some ps := by
  induction l with
  | nil => exact ⟨[], rfl⟩
  | cons it rest ih =>
    rcases Option.isSome_iff_exists.mp (h it (by simp)) with ⟨p, hp⟩
    rcases ih (fun x hx => h x (by simp [hx])) with ⟨ps, hps⟩
    exact ⟨p :: ps, by simp [resolveAll, hp, hps]⟩

theorem resolveAll_forall {l : List RawItem} {ps : List PreRow}
    (h : resolveAll l = some ps) : ∀ it ∈ l, (toPre it).isSome := by
  induction l generalizing ps with
  | nil => intro it hit; simp at hit
  | cons it0 rest ih =>
    intro it hit
    simp only [resolveAll] at h
    rcases hp : toPre it0 with _ | p
    · rw [hp] at h; cases h
    · rw [hp] at h
      rcases hps : resolveAll rest with _ | ps'
      · rw [hps] at h; cases h
      · rw [hps] at h
        rcases List.mem_cons.mp hit with h1 | h1
        · subst h1; simp [hp]
        · exact ih hps it h1

/-! ### The execute loop -/

theorem chunkLoop_ok_iff (now : Nat) (cs : List (List RawItem)) :
    ∀ (store st : Store) (e ex : Nat),
    (chunkLoop now store cs e = (.ok st, ex) ↔
      ∃ ps, resolveAll cs.flatten = some ps ∧
        st = ps.foldl (applyOne now) store ∧ ex = e + cs.length) := by
  induction cs with
  | nil =>
    intro store st e ex
    constructor
    · intro h
      simp only [chunkLoop] at h
      cases h
      exact ⟨[], rfl, rfl, by simp⟩
    · rintro ⟨ps, hps, hst, hex⟩
      simp only [List.flatten_nil, resolveAll] at hps
      cases hps
      simp [chunkLoop, hst, hex]
  | cons c cs ih =>
    intro store st e ex
    constructor
    · intro h
      simp only [chunkLoop] at h
      rcases hc : resolveAll c with _ | psc
      · rw [hc] at h; cases h
      · rw [hc] at h
        rcases (ih _ st (e + 1) ex).mp h with ⟨ps', hps', hst, hex⟩
        refine ⟨psc ++ ps', ?_, ?_, ?_⟩
        · rw [List.flatten_cons, resolveAll_append, hc, hps']; rfl
        · rw [hst, List.foldl_append]
        · rw [hex]; simp [Nat.add_assoc, Nat.add_comm 1 cs.length]
    · rintro ⟨ps, hps, hst, hex⟩
      rw [List.flatten_cons, resolveAll_append] at hps
      rcases hc : resolveAll c with _ | psc
      · rw [hc] at hps; cases hps
      · rw [hc] at hps
        rcases hcs : resolveAll cs.flatten with _ | ps'
        · rw [hcs] at hps; cases hps
        · rw [hcs] at hps
          have hps2 : psc ++ ps' = ps := Option.some.inj hps
          simp only [chunkLoop, hc]
          refine (ih _ st (e + 1) ex).mpr ⟨ps', hcs, ?_, ?_⟩
          · rw [hst, ← hps2, List.foldl_append]
          · rw [hex]; simp [Nat.add_assoc, Nat.add_comm 1 cs.length]

/-! ### Characterizing a whole batch of conditional writes -/

theorem rowKey_patchFn (now : Nat) (ps : List PreRow) (r : Row) :
    rowKey (patchFn now ps r) = rowKey r := by
  unfold patchFn
  rcases ps.find? (fun p => keyOf p = rowKey r) with _ | p
  · rfl
  · rfl

theorem find?_none_of_not_mem_keys {ps : List PreRow} {K : Key}
    (h : K ∉ ps.map keyOf) : ps.find? (fun p => keyOf p = K) = none := by
  rw [List.find?_eq_none]
  intro p hp
  simp only [decide_eq_true_eq]
  intro hc
  exact h (List.mem_map.mpr ⟨p, hp, hc⟩)

/-- A batch of distinct-key tuples applied in sequence: every stored row is
patched according to the (unique) tuple with its key, and the tuples whose
keys are fresh are appended in batch order. -/
theorem foldl_applyOne_eq (now : Nat) (ps : List PreRow) :
    ∀ store : Store, (ps.map keyOf).Nodup →
    ps.foldl (applyOne now) store =
      store.map (patchFn now ps) ++ (freshOnes store ps).map (newRow now) := by
  induction ps with
  | nil =>
    intro store _
    have : store.map (patchFn now []) = store := by
      refine (List.map_congr_left ?_).trans (List.map_id store)
      intro r _
      simp [patchFn]
    simp [freshOnes, this]
  | cons p ps ih =>
    intro store hnd
    have hnd2 : (keyOf p :: ps.map keyOf).Nodup := by simpa using hnd
    have hnd' : (ps.map keyOf).Nodup := (List.nodup_cons.mp hnd2).2
    have hknotin : keyOf p ∉ ps.map keyOf := (List.nodup_cons.mp hnd2).1
    have hfind : ps.find? (fun q => keyOf q = keyOf p) = none :=
      find?_none_of_not_mem_keys hknotin
    rw [List.foldl_cons, ih (applyOne now store p) hnd']
    by_cases hhit : store.any (fun r => rowKey r = keyOf p)
    · -- key already present: the tuple updates rows in place
      have happ : applyOne now store p =
          store.map (fun r => if rowKey r = keyOf p then updRow now p r else r) := by
        unfold applyOne
        rw [if_pos hhit]
      rw [happ, List.map_map]
      have hmap : store.map
          ((patchFn now ps) ∘ (fun r => if rowKey r = keyOf p then updRow now p r else r)) =
          store.map (patchFn now (p :: ps)) := by
        refine List.map_congr_left ?_
        intro r _
        by_cases hk : rowKey r = keyOf p
        · have h1 : (patchFn now ps ∘ fun r =>
              if rowKey r = keyOf p then updRow now p r else r) r = updRow now p r := by
            simp only [Function.comp_apply, if_pos hk]
            unfold patchFn
            rw [rowKey_updRow, hk, hfind]
          have h2 : patchFn now (p :: ps) r = updRow now p r := by
            unfold patchFn
            rw [List.find?_cons]
            have hpr : decide (keyOf p = rowKey r) = true := by simp [hk]
            rw [hpr]
          rw [h1, h2]
        · simp only [Function.comp_apply, if_neg hk, patchFn, List.find?_cons]
          have : (decide (keyOf p = rowKey r)) = false := by
            simp only [decide_eq_false_iff_not]
            exact fun hc => hk hc.symm
          rw [this]
      have hfresh : freshOnes (store.map
          (fun r => if rowKey r = keyOf p then updRow now p r else r)) ps =
          freshOnes store ps := by
        unfold freshOnes
        have : (fun q : PreRow => !((store.map
            (fun r => if rowKey r = keyOf p then updRow now p r else r)).any
              (fun r => rowKey r = keyOf q))) =
            (fun q : PreRow => !(store.any (fun r => rowKey r = keyOf q))) := by
          funext q
          congr 1
          rw [List.any_map]
          refine congrArg store.any ?_
          funext r
          by_cases hk : rowKey r = keyOf p
          · simp [Function.comp, hk, rowKey_updRow]
          · simp [Function.comp, hk]
        rw [this]
      have hfresh2 : freshOnes store (p :: ps) = freshOnes store ps := by
        unfold freshOnes
        rw [List.filter_cons]
        simp [hhit]
      rw [hmap, hfresh, hfresh2]
    · -- fresh key: the tuple is appended
      have happ : applyOne now store p = store ++ [newRow now p] := by
        unfold applyOne
        rw [if_neg hhit]
      have hnotmem : ∀ r ∈ store, ¬(rowKey r = keyOf p) := by
        intro r hr hc
        exact hhit (List.any_eq_true.mpr ⟨r, hr, by simp [hc]⟩)
      rw [happ, List.map_append]
      have hone : [newRow now p].map (patchFn now ps) = [newRow now p] := by
        simp [patchFn, rowKey_newRow, hfind]
      have hmap : store.map (patchFn now ps) = store.map (patchFn now (p :: ps)) := by
        refine List.map_congr_left ?_
        intro r hr
        simp only [patchFn, List.find?_cons]
        have : (decide (keyOf p = rowKey r)) = false := by
          simp only [decide_eq_false_iff_not]
          exact fun hc => hnotmem r hr hc.symm
        rw [this]
      have hfresh : freshOnes (store ++ [newRow now p]) ps = freshOnes store ps := by
        unfold freshOnes
        refine List.filter_congr ?_
        intro q hq
        have hqne : keyOf q ≠ keyOf p := by
          intro hc
          exact hknotin (hc ▸ List.mem_map.mpr ⟨q, hq, rfl⟩)
        rw [List.any_append]
        have : [newRow now p].any (fun r => rowKey r = keyOf q) = false := by
          simp [rowKey_newRow]
          exact fun hc => hqne hc.symm
        rw [this, Bool.or_false]
      have hfresh2 : freshOnes store (p :: ps) = p :: freshOnes store ps := by
        unfold freshOnes
        rw [List.filter_cons]
        simp [hhit]
      rw [hone, hmap, hfresh, hfresh2]
      simp

/-! ### Unfolding `upsert_items` -/

theorem upsert_items_empty (now : Nat) (store : Store) :
    upsert_items now store [] = ⟨.ok (store, 0), 0⟩ := rfl

theorem upsert_items_eq_of {now : Nat} {store : Store} {items : List RawItem}
    {seen : List (Key × RawItem)} {ps : List PreRow} (hne : items ≠ [])
    (hd : dedupLoop [] items = .ok seen)
    (hr : resolveAll (seen.map (fun q => q.2)) = some ps) :
    upsert_items now store items =
      ⟨.ok (ps.foldl (applyOne now) store, items.length),
       0 + (chunkList 2000 (seen.map (fun q => q.2))).length⟩ := by
  unfold upsert_items
  have he : items.isEmpty = false := by
    cases items with
    | nil => exact absurd rfl hne
    | cons a l => rfl
  rw [he]
  simp only [Bool.false_eq_true, if_false, hd]
  have hflat : resolveAll ((chunkList 2000 (seen.map (fun q => q.2))).flatten) = some ps := by
    rw [chunkList_flatten]; exact hr
  have := (chunkLoop_ok_iff now (chunkList 2000 (seen.map (fun q => q.2))) store
      (ps.foldl (applyOne now) store) 0
      (0 + (chunkList 2000 (seen.map (fun q => q.2))).length)).mpr
    ⟨ps, hflat, rfl, rfl⟩
  rw [this]

theorem upsert_items_ok_elim {now : Nat} {store st : Store} {items : List RawItem}
    {n ex : Nat} (h : upsert_items now store items = ⟨.ok (st, n), ex⟩) :
    (items = [] ∧ st = store ∧ n = 0 ∧ ex = 0) ∨
    (∃ seen ps, dedupLoop [] items = .ok seen ∧
      resolveAll (seen.map (fun q => q.2)) = some ps ∧
      st = ps.foldl (applyOne now) store ∧ n = items.length) := by
  unfold upsert_items at h
  cases hemp : items.isEmpty with
  | true =>
    left
    have : items = [] := List.isEmpty_iff.mp hemp
    subst this
    rw [hemp] at h
    simp only [if_true] at h
    have h1 := congrArg UpsertResult.result h
    have h2 := congrArg UpsertResult.execs h
    simp only at h1 h2
    have h3 := Except.ok.inj h1
    exact ⟨rfl, (congrArg Prod.fst h3).symm, (congrArg Prod.snd h3).symm, h2.symm⟩
  | false =>
    right
    rw [hemp] at h
    simp only [Bool.false_eq_true, if_false] at h
    rcases hd : dedupLoop [] items with e | seen
    · rw [hd] at h
      have h1 := congrArg UpsertResult.result h
      simp only at h1
      cases h1
    · rw [hd] at h
      have h' : (match chunkLoop now store (chunkList 2000 (seen.map (fun p => p.2))) 0 with
          | (Except.error e, ex) => ({ result := Except.error e, execs := ex } : UpsertResult)
          | (Except.ok store2, ex) =>
            { result := Except.ok (store2, items.length), execs := ex }) =
          { result := Except.ok (st, n), execs := ex } := h
      clear h
      rcases hcl : chunkLoop now store (chunkList 2000 (seen.map (fun q => q.2))) 0 with ⟨res, ex2⟩
      rw [hcl] at h'
      cases res with
      | error e =>
        have h1 := congrArg UpsertResult.result h'
        simp only at h1
        cases h1
      | ok store2 =>
        have h1 := congrArg UpsertResult.result h'
        simp only at h1
        have h3 := Except.ok.inj h1
        injection h3 with hfst hsnd
        rcases (chunkLoop_ok_iff now _ store store2 0 ex2).mp hcl with ⟨ps, hps, hst, _⟩
        rw [chunkList_flatten] at hps
        exact ⟨seen, ps, rfl, hps, by rw [← hfst, hst], hsnd.symm⟩

theorem itemKey_isSome_of_toPre {it : RawItem} (h : (toPre it).isSome) :
    (itemKey it).isSome := by
  rcases Option.isSome_iff_exists.mp h with ⟨p, hp⟩
  exact toPre_isSome_of_itemKey hp

/-- When every record of the batch carries all required columns, the call
commits and returns the pre-dedup count. -/
theorem upsert_items_ok_of_valid (now : Nat) (store : Store) (items : List RawItem)
    (h : ∀ it ∈ items, (toPre it).isSome) :
    resultCount (upsert_items now store items) = some items.length := by
  cases hemp : items with
  | nil => rfl
  | cons a l =>
    rw [← hemp]
    have hne : items ≠ [] := by rw [hemp]; exact List.cons_ne_nil a l
    rcases dedupLoop_total (fun it hit => itemKey_isSome_of_toPre (h it hit)) [] with ⟨seen, hd⟩
    have hvals : ∀ it ∈ seen.map (fun q => q.2), (toPre it).isSome := by
      intro it hit
      rcases List.mem_map.mp hit with ⟨q, hq, hq2⟩
      rcases dedupLoop_values hd q hq with h1 | h1
      · simp at h1
      · subst hq2
        exact h q.2 h1
    rcases resolveAll_total hvals with ⟨ps, hr⟩
    rw [upsert_items_eq_of hne hd hr]
    rfl

/-! ### Linking resolved tuples back to the dedup dict -/

theorem resolveAll_keys {seen : List (Key × RawItem)} :
    ∀ {ps : List PreRow}, (∀ q ∈ seen, itemKey q.2 = some q.1) →
    resolveAll (seen.map (fun q => q.2)) = some ps →
    ps.map keyOf = seen.map (fun q => q.1) := by
  induction seen with
  | nil =>
    intro ps _ h
    simp only [List.map_nil, resolveAll] at h
    cases h
    rfl
  | cons q rest ih =>
    intro ps hcons h
    simp only [List.map_cons, resolveAll] at h
    rcases hp : toPre q.2 with _ | p
    · rw [hp] at h; cases h
    · rw [hp] at h
      rcases hrest : resolveAll (rest.map (fun q => q.2)) with _ | ps'
      · rw [hrest] at h; cases h
      · rw [hrest] at h
        cases h
        have hk : keyOf p = q.1 := by
          have h1 := toPre_key hp
          have h2 := hcons q (by simp)
          rw [h1] at h2
          exact Option.some.inj h2
        simp only [List.map_cons, hk]
        rw [ih (fun x hx => hcons x (by simp [hx])) hrest]

theorem resolveAll_find? {seen : List (Key × RawItem)} :
    ∀ {ps : List PreRow}, (∀ q ∈ seen, itemKey q.2 = some q.1) →
    resolveAll (seen.map (fun q => q.2)) = some ps → ∀ K,
    ps.find? (fun p => keyOf p = K) =
      (seen.find? (fun q => q.1 = K)).bind (fun q => toPre q.2) := by
  induction seen with
  | nil =>
    intro ps _ h K
    simp only [List.map_nil, resolveAll] at h
    cases h
    rfl
  | cons q rest ih =>
    intro ps hcons h K
    simp only [List.map_cons, resolveAll] at h
    rcases hp : toPre q.2 with _ | p
    · rw [hp] at h; cases h
    · rw [hp] at h
      rcases hrest : resolveAll (rest.map (fun q => q.2)) with _ | ps'
      · rw [hrest] at h; cases h
      · rw [hrest] at h
        cases h
        have hk : keyOf p = q.1 := by
          have h1 := toPre_key hp
          have h2 := hcons q (by simp)
          rw [h1] at h2
          exact Option.some.inj h2
        rw [List.find?_cons, List.find?_cons]
        by_cases hK : q.1 = K
        · have e1 : decide (keyOf p = K) = true := by simp [hk, hK]
          have e2 : decide (q.1 = K) = true := by simp [hK]
          rw [e1, e2]
          simp [hp]
        · have e1 : decide (keyOf p = K) = false := by simp [hk, hK]
          have e2 : decide (q.1 = K) = false := by simp [hK]
          rw [e1, e2]
          exact ih (fun x hx => hcons x (by simp [hx])) hrest K

/-- The dedup dict, looked up through `find?`, yields the last input record
with the given key. -/
theorem seen_find?_eq_lastItemFor {items : List RawItem} {seen : List (Key × RawItem)}
    (hd : dedupLoop [] items = .ok seen) (K : Key) :
    (seen.find? (fun q => q.1 = K)).map (fun q => q.2) = lastItemFor K items := by
  have h1 := dedupLoop_lookup hd K
  simpa [lookupA, Option.or_none] using h1

/-! ### Counting rows by key -/

theorem nodup_countP_le_one {l : List Key} (h : l.Nodup) (K : Key) :
    l.countP (fun k => k = K) ≤ 1 := by
  induction l with
  | nil => simp
  | cons a l ih =>
    rw [List.countP_cons]
    rcases List.nodup_cons.mp h with ⟨ha, hl⟩
    by_cases hK : a = K
    · subst hK
      have : l.countP (fun k => k = a) = 0 := by
        rw [List.countP_eq_zero]
        intro x hx
        simp only [decide_eq_true_eq]
        intro hc
        exact ha (hc ▸ hx)
      simp [this]
    · simp [hK, ih hl]

theorem countP_key_le_one {store : Store} (h : (store.map rowKey).Nodup) (K : Key) :
    store.countP (fun r => rowKey r = K) ≤ 1 := by
  have h1 : store.countP (fun r => rowKey r = K)
      = (store.map rowKey).countP (fun k => k = K) := by
    rw [List.countP_map]
    rfl
  rw [h1]
  exact nodup_countP_le_one h K

theorem countP_key_pos {store : Store} {r : Row} (hr : r ∈ store) {K : Key}
    (hk : rowKey r = K) : 0 < store.countP (fun r => rowKey r = K) :=
  List.countP_pos.mpr ⟨r, hr, by simp [hk]⟩

/-! ### Structure of a successful upsert call -/

theorem lastItemFor_key {K : Key} {itl : RawItem} :
    ∀ {items : List RawItem}, lastItemFor K items = some itl → itemKey itl = some K := by
  intro items
  induction items with
  | nil => intro h; cases h
  | cons it rest ih =>
    intro h
    simp only [lastItemFor] at h
    rcases hrest : lastItemFor K rest with _ | v
    · rw [hrest] at h
      by_cases hk : itemKey it = some K
      · rw [if_pos hk] at h
        cases h
        exact hk
      · rw [if_neg hk] at h
        cases h
    · rw [hrest] at h
      cases h
      exact ih hrest

theorem eq_of_same_key {ps : List PreRow} (hnod : (ps.map keyOf).Nodup)
    {p q : PreRow} (hp : p ∈ ps) (hq : q ∈ ps) (hk : keyOf p = keyOf q) : p = q :=
  List.inj_on_of_nodup_map hnod hp hq hk

/-- Everything a successful non-empty `upsert_items` call determines: a
resolved batch `ps` with pairwise-distinct keys whose sequential application
produced the final store, whose per-key lookup is the resolution of the last
input record with that key, and whose return value is the pre-dedup length. -/
theorem upsert_struct {now : Nat} {store st : Store} {items : List RawItem} {n ex : Nat}
    (hne : items ≠ []) (h : upsert_items now store items = ⟨.ok (st, n), ex⟩) :
    ∃ ps : List PreRow,
      (ps.map keyOf).Nodup ∧
      st = store.map (patchFn now ps) ++ (freshOnes store ps).map (newRow now) ∧
      (∀ K, ps.find? (fun p => keyOf p = K) = (lastItemFor K items).bind toPre) ∧
      (∀ K itl, lastItemFor K items = some itl → (toPre itl).isSome) ∧
      n = items.length := by
  rcases upsert_items_ok_elim h with ⟨hnil, _⟩ | ⟨seen, ps, hd, hr, hst, hn⟩
  · exact absurd hnil hne
  · have hcons : ∀ q ∈ seen, itemKey q.2 = some q.1 :=
      dedupLoop_consistent hd (by intro q hq; simp at hq)
    have hkeys := resolveAll_keys hcons hr
    have hnodseen : (seen.map (fun q => q.1)).Nodup :=
      dedupLoop_keysNodup hd (by simp)
    have hnod : (ps.map keyOf).Nodup := by rw [hkeys]; exact hnodseen
    have hsome : ∀ K itl, lastItemFor K items = some itl → (toPre itl).isSome := by
      intro K itl hlast
      have h2 := seen_find?_eq_lastItemFor hd K
      rw [hlast] at h2
      rcases hf : seen.find? (fun q => q.1 = K) with _ | q
      · rw [hf] at h2; cases h2
      · rw [hf] at h2
        have hq2 : q.2 = itl := Option.some.inj h2
        have hmem : q ∈ seen := List.mem_of_find?_eq_some hf
        have := resolveAll_forall hr q.2 (List.mem_map.mpr ⟨q, hmem, rfl⟩)
        rw [hq2] at this
        exact this
    refine ⟨ps, hnod, ?_, ?_, hsome, hn⟩
    · rw [hst, foldl_applyOne_eq now ps store hnod]
    · intro K
      rw [resolveAll_find? hcons hr K]
      have h2 := seen_find?_eq_lastItemFor hd K
      rcases hf : seen.find? (fun q => q.1 = K) with _ | q
      · rw [hf] at h2
        rw [hf, ← h2]
        rfl
      · rw [hf] at h2
        rw [hf, ← h2]
        rfl

/-- Per-key characterization of the final store of a successful non-empty
upsert: for a key `K` whose last input record resolves to tuple `p`, the
store holds exactly one row with key `K`, and that row is either the
conflict-update of a prior row or a fresh insert of `p`. -/
theorem upsert_row_char {now : Nat} {store st : Store} {items : List RawItem} {n ex : Nat}
    (hnods : (store.map rowKey).Nodup) (hne : items ≠ [])
    (h : upsert_items now store items = ⟨.ok (st, n), ex⟩)
    {K : Key} {itl : RawItem} (hlast : lastItemFor K items = some itl)
    {p : PreRow} (hp : toPre itl = some p) :
    st.countP (fun r => rowKey r = K) = 1 ∧
    (∀ r ∈ st, rowKey r = K →
      ((∃ r0 ∈ store, rowKey r0 = K ∧ r = updRow now p r0) ∨
       ((∀ r0 ∈ store, rowKey r0 ≠ K) ∧ r = newRow now p))) := by
  rcases upsert_struct hne h with ⟨ps, hnod, hst, hfind, _, _⟩
  have hpK : keyOf p = K := by
    have h1 := toPre_key hp
    have h2 := lastItemFor_key hlast
    rw [h2] at h1
    exact (Option.some.inj h1).symm
  have hfindK : ps.find? (fun q => keyOf q = K) = some p := by
    rw [hfind K, hlast]
    simp [hp]
  have hpmem : p ∈ ps := List.mem_of_find?_eq_some hfindK
  have hcount_map : (store.map (patchFn now ps)).countP (fun r => rowKey r = K)
      = store.countP (fun r => rowKey r = K) := by
    rw [List.countP_map]
    refine List.countP_congr ?_
    intro r _
    simp [Function.comp, rowKey_patchFn]
  have hcount_ins : ((freshOnes store ps).map (newRow now)).countP (fun r => rowKey r = K)
      = (freshOnes store ps).countP (fun q => keyOf q = K) := by
    rw [List.countP_map]
    refine List.countP_congr ?_
    intro q _
    simp [Function.comp, rowKey_newRow]
  constructor
  · rw [hst, List.countP_append, hcount_map, hcount_ins]
    by_cases hm : store.any (fun r => rowKey r = K)
    · -- the key already exists: one prior row updated, nothing inserted
      rcases List.any_eq_true.mp hm with ⟨r0, hr0, hr0K⟩
      simp only [decide_eq_true_eq] at hr0K
      have h1 : store.countP (fun r => rowKey r = K) = 1 :=
        Nat.le_antisymm (countP_key_le_one hnods K) (countP_key_pos hr0 hr0K)
      have h2 : (freshOnes store ps).countP (fun q => keyOf q = K) = 0 := by
        rw [List.countP_eq_zero]
        intro q hq
        rcases List.mem_filter.mp hq with ⟨_, hqf⟩
        simp only [Bool.not_eq_eq_eq_not, Bool.not_true] at hqf
        simp only [decide_eq_true_eq]
        intro hqK
        rw [hqK, hm] at hqf
        cases hqf
      rw [h1, h2]
    · -- fresh key: nothing prior, exactly the one tuple inserted
      have h1 : store.countP (fun r => rowKey r = K) = 0 := by
        rw [List.countP_eq_zero]
        intro r hr
        simp only [decide_eq_true_eq]
        intro hc
        exact hm (List.any_eq_true.mpr ⟨r, hr, by simp [hc]⟩)
      have hple : (freshOnes store ps).countP (fun q => keyOf q = K) ≤ 1 := by
        unfold freshOnes
        rw [List.countP_filter]
        calc ps.countP (fun q => decide (keyOf q = K) &&
              !(store.any (fun r => rowKey r = keyOf q)))
            ≤ ps.countP (fun q => keyOf q = K) :=
              List.countP_mono_left (by
                intro q _ hq
                exact (Bool.and_elim_left hq))
          _ = (ps.map keyOf).countP (fun k => k = K) := by rw [List.countP_map]; rfl
          _ ≤ 1 := nodup_countP_le_one hnod K
      have hppos : 0 < (freshOnes store ps).countP (fun q => keyOf q = K) := by
        refine List.countP_pos.mpr ⟨p, ?_, by simp [hpK]⟩
        refine List.mem_filter.mpr ⟨hpmem, ?_⟩
        simp only [Bool.not_eq_eq_eq_not, Bool.not_true]
        rw [hpK]
        exact Bool.eq_false_iff.mpr hm
      rw [h1, Nat.le_antisymm hple hppos]
  · intro r hr hrK
    rw [hst] at hr
    rcases List.mem_append.mp hr with hmem | hmem
    · rcases List.mem_map.mp hmem with ⟨r0, hr0, hr0e⟩
      left
      have hkey0 : rowKey r0 = K := by
        rw [← hr0e] at hrK
        rw [← hrK, rowKey_patchFn]
      refine ⟨r0, hr0, hkey0, ?_⟩
      rw [← hr0e]
      unfold patchFn
      rw [hkey0, hfindK]
    · rcases List.mem_map.mp hmem with ⟨q, hq, hqe⟩
      right
      rcases List.mem_filter.mp hq with ⟨hqps, hqf⟩
      have hkeyq : keyOf q = K := by
        rw [← hqe] at hrK
        rw [← hrK, rowKey_newRow]
      have hqp : q = p := eq_of_same_key hnod hqps hpmem (by rw [hkeyq, hpK])
      constructor
      · intro r0 hr0 hc
        simp only [Bool.not_eq_eq_eq_not, Bool.not_true] at hqf
        rw [List.any_eq_false] at hqf
        have h3 : ¬(rowKey r0 = keyOf q) := by simpa using hqf r0 hr0
        exact h3 (by rw [hkeyq]; exact hc)
      · rw [← hqe, hqp]

/-! ### Sync-state facts -/

theorem update_sync_state_status (now : Nat) (st : Option SyncRow) (source s : String)
    (e : Option String) (n : Nat) (c : Option Doc) :
    (update_sync_state now st source s e n c).status = s := by
  cases st <;> rfl

theorem update_sync_state_error (now : Nat) (st : Option SyncRow) (source s : String)
    (e : Option String) (n : Nat) (c : Option Doc) :
    (update_sync_state now st source s e n c).error_message = e := by
  cases st <;> rfl

theorem update_sync_state_items (now : Nat) (st : Option SyncRow) (source s : String)
    (e : Option String) (n : Nat) (c : Option Doc) :
    (update_sync_state now st source s e n c).items_synced = n := by
  cases st <;> rfl

theorem pyTruncate_length_le (s : String) (n : Nat) :
    (pyTruncate s n).length ≤ n := by
  show (s.data.take n).length ≤ n
  rw [List.length_take]
  exact Nat.min_le_left n s.data.length


/-! ## Claim theorems -/

/-- C5 (confirmed): `update_sync_state` without a cursor argument leaves the
stored cursor observable through `get_cursor` unchanged (also when no row
existed: both read as the empty document); supplying a cursor overwrites the
stored one; in particular a status-only `running` update after an update that
did supply a cursor still reads back that cursor. -/
theorem updateSyncState_cursor_preserved :
    (∀ now st src s e n,
      get_cursor (some (update_sync_state now st src s e n none)) = get_cursor st) ∧
    (∀ now st src s e n c,
      (update_sync_state now st src s e n (some c)).cursor = c) ∧
    (∀ now1 now2 st src s1 e1 n1 c,
      get_cursor (some (update_sync_state now2
        (some (update_sync_state now1 st src s1 e1 n1 (some c)))
        src "running" none 0 none)) = c) := by
  refine ⟨?_, ?_, ?_⟩
  · intro now st src s e n
    cases st <;> rfl
  · intro now st src s e n c
    cases st <;> rfl
  · intro now1 now2 st src s1 e1 n1 c
    cases st <;> rfl

/-- C7 (confirmed): `run` is a total function — an exception raised inside
`collect` is absorbed, never re-raised — and when `collect` raises with
message `e`, the recorded sync state has `status = "error"` and
`errorMessage` equal to `e` truncated to at most 500 characters. -/
theorem run_absorbs_collect_exception (collect : CollectFn) (src : String)
    (t0 t1 : Nat) (st st2 : FullState) (e : String)
    (h : collect { st with
        sync := some (update_sync_state t0 st.sync src "running" none 0 none) }
      = .error (st2, e)) :
    ∃ r, (run collect src t0 t1 st).sync = some r ∧
      r.status = "error" ∧
      r.error_message = some (pyTruncate e 500) ∧
      (pyTruncate e 500).length ≤ 500 := by
  show ∃ r, (match collect { st with
      sync := some (update_sync_state t0 st.sync src "running" none 0 none) } with
    | .ok (st2, count) =>
      { st2 with sync := some (update_sync_state t1 st2.sync src "idle" none count none) }
    | .error (st2, e) =>
      { st2 with sync := some (update_sync_state t1 st2.sync src "error"
          (some (pyTruncate e 500)) 0 none) } : FullState).sync = some r ∧ _
  rw [h]
  exact ⟨_, rfl, update_sync_state_status .., update_sync_state_error ..,
    pyTruncate_length_le e 500⟩

/-- C1 counterexample: the claim asserts that after a failing run
`itemsSynced` is unchanged from before the run.  Here the stored row had
`items_synced = 7` before the run, `collect` raises, and afterwards the row
records `items_synced = 0`: the pre-run value is overwritten, not kept. -/
theorem run_error_itemsSynced_not_preserved_cex :
    ((run collectBoom "svc" 1 2 st7).sync.map SyncRow.items_synced) = some 0 ∧
    (st7.sync.map SyncRow.items_synced) = some 7 ∧
    ((run collectBoom "svc" 1 2 st7).sync.map SyncRow.status) = some "error" ∧
    ((run collectBoom "svc" 1 2 st7).sync.map SyncRow.error_message) = some (some "boom") ∧
    ¬(((run collectBoom "svc" 1 2 st7).sync.map SyncRow.items_synced)
        = (st7.sync.map SyncRow.items_synced)) := by
  refine ⟨rfl, rfl, rfl, rfl, ?_⟩
  intro h
  have h2 : (some 0 : Option Nat) = some 7 := h
  cases Option.some.inj h2

/-- C1 (amended): when `collect` raises, the sync-state row written by `run`
has `status = "error"`, an `errorMessage` equal to the exception's message
truncated to at most 500 characters, and `items_synced` overwritten with `0`
(the `update_sync_state` default), regardless of the value recorded before
the run. -/
theorem run_error_sync_state (collect : CollectFn) (src : String)
    (t0 t1 : Nat) (st st2 : FullState) (e : String)
    (h : collect { st with
        sync := some (update_sync_state t0 st.sync src "running" none 0 none) }
      = .error (st2, e)) :
    ∃ r, (run collect src t0 t1 st).sync = some r ∧
      r.status = "error" ∧
      r.error_message = some (pyTruncate e 500) ∧
      (pyTruncate e 500).length ≤ 500 ∧
      r.items_synced = 0 := by
  show ∃ r, (match collect { st with
      sync := some (update_sync_state t0 st.sync src "running" none 0 none) } with
    | .ok (st2, count) =>
      { st2 with sync := some (update_sync_state t1 st2.sync src "idle" none count none) }
    | .error (st2, e) =>
      { st2 with sync := some (update_sync_state t1 st2.sync src "error"
          (some (pyTruncate e 500)) 0 none) } : FullState).sync = some r ∧ _
  rw [h]
  exact ⟨_, rfl, update_sync_state_status .., update_sync_state_error ..,
    pyTruncate_length_le e 500, update_sync_state_items ..⟩


/-- C4 (confirmed): `upsert_items` returns the length of the original input
list — the pre-dedup count — not the number of distinct rows: it returns 0
immediately for an empty list, every successful call returns
`items.length`, and three records sharing one key return 3 while the store
ends up with a single row. -/
theorem upsert_returns_prededup_count :
    (∀ now store, upsert_items now store [] = ⟨.ok (store, 0), 0⟩) ∧
    (∀ now store items st n ex,
      upsert_items now store items = ⟨.ok (st, n), ex⟩ → n = items.length) ∧
    (resultCount (upsert_items 7 [] [sampleItem "A", sampleItem "B", sampleItem "C"])
        = some 3 ∧
     (okStore (upsert_items 7 [] [sampleItem "A", sampleItem "B", sampleItem "C"])).map
        List.length = some 1) := by
  refine ⟨fun now store => rfl, ?_, rfl, rfl⟩
  intro now store items st n ex h
  rcases upsert_items_ok_elim h with ⟨hnil, _, hn, _⟩ | ⟨_, _, _, _, _, hn⟩
  · rw [hn, hnil]
    rfl
  · exact hn

/-- C8 counterexample: the claim says a batch containing a record missing a
required field fails before any store interaction.  `noCategoryItem` has
both identity fields but no `category` (a required NOT NULL column): the
call does fail — nothing is committed — but only at the chunk write, after
one `session.execute` store interaction was performed (`execs = 1`, not 0). -/
theorem upsert_missing_required_store_interaction_cex :
    (upsert_items 0 [] [noCategoryItem]).result = .error .notNull ∧
    (upsert_items 0 [] [noCategoryItem]).execs = 1 ∧
    ¬((upsert_items 0 [] [noCategoryItem]).execs = 0) := by
  refine ⟨rfl, rfl, ?_⟩
  intro h
  cases h

/-- C8 (amended): a record missing a required *identity* field (`source` or
`sourceId`) makes `upsert_items` fail during batch preparation — a
`KeyError`-style validation failure raised before any store interaction
(`execs = 0`) — and since nothing was committed the batch is not applied at
all; a record missing another required column instead fails at the database
write itself (a store interaction occurs), which aborts the call before its
final commit, so the batch is still not partially applied. -/
theorem upsert_missing_identity_fails_fast (now : Nat) (store : Store)
    (items : List RawItem) (h : ∃ it ∈ items, itemKey it = none) :
    (upsert_items now store items).result = .error .keyError ∧
    (upsert_items now store items).execs = 0 := by
  rcases h with ⟨it, hit, hK⟩
  have hemp : items.isEmpty = false := by
    cases items with
    | nil => simp at hit
    | cons a l => rfl
  have hd := dedupLoop_error_of_missing ⟨it, hit, hK⟩ []
  unfold upsert_items
  rw [hemp]
  simp [hd]

/-- C2 counterexample: the claim says the stored row's `syncedAt` always
equals the time of the write, never a client-supplied value.  Upserting a
record that carries `synced_at = 5` into an empty store at write time 99
stores `synced_at = 5`: on a fresh insert the client value is taken
verbatim and the write time 99 is not used. -/
theorem upsert_syncedAt_client_supplied_cex :
    (okStore (upsert_items 99 [] [clientSyncedItem])).map
        (fun s => s.map Row.synced_at) = some [5] ∧
    ¬((okStore (upsert_items 99 [] [clientSyncedItem])).map
        (fun s => s.map Row.synced_at) = some [99]) := by
  refine ⟨rfl, ?_⟩
  intro h
  have h2 : (some [5] : Option (List Nat)) = some [99] := h
  cases Option.some.inj h2

/-- C2 (amended): for every row that already existed (the conflict path),
`upsert_items` overwrites `syncedAt` with the write time regardless of any
client-supplied value; for a newly inserted row, `syncedAt` equals the write
time whenever the record does not carry a `synced_at` value (the column's
server default), but a client-supplied value is stored as given on insert. -/
theorem upsert_syncedAt_write_time (now : Nat) (store st : Store)
    (items : List RawItem) (n ex : Nat)
    (hnods : (store.map rowKey).Nodup)
    (h : upsert_items now store items = ⟨.ok (st, n), ex⟩)
    (K : Key) (itl : RawItem) (hlast : lastItemFor K items = some itl) :
    ∀ r ∈ st, rowKey r = K →
      ((∃ r0 ∈ store, rowKey r0 = K) → r.synced_at = now) ∧
      ((∀ r0 ∈ store, rowKey r0 ≠ K) → itl.synced_at = none → r.synced_at = now) := by
  have hne : items ≠ [] := by
    intro hc
    subst hc
    cases hlast
  rcases upsert_struct hne h with ⟨ps, _, _, _, hsome, _⟩
  rcases Option.isSome_iff_exists.mp (hsome K itl hlast) with ⟨p, hp⟩
  have hchar := (upsert_row_char hnods hne h hlast hp).2
  intro r hr hrK
  rcases hchar r hr hrK with ⟨r0, hr0, hr0K, hre⟩ | ⟨hnone, hre⟩
  · constructor
    · intro _
      rw [hre]
      rfl
    · intro hall _
      exact absurd hr0K (hall r0 hr0)
  · constructor
    · rintro ⟨r0, hr0, hr0K⟩
      exact absurd hr0K (hnone r0 hr0)
    · intro _ hsync
      rw [hre]
      have hfields := toPre_fields hp
      have hps : p.synced_at = none := by
        rw [hfields.2.2.2.2.2.2.2, hsync]
      show p.synced_at.getD now = now
      rw [hps]
      rfl

theorem lastItemFor_isSome {K : Key} : ∀ {items : List RawItem} {it : RawItem},
    it ∈ items → itemKey it = some K → ∃ itl, lastItemFor K items = some itl := by
  intro items
  induction items with
  | nil => intro it h _; simp at h
  | cons it0 rest ih =>
    intro it hit hK
    simp only [lastItemFor]
    rcases hrest : lastItemFor K rest with _ | v
    · rcases List.mem_cons.mp hit with h1 | h1
      · subst h1
        rw [if_pos hK]
        exact ⟨it, rfl⟩
      · rcases ih h1 hK with ⟨itl, hitl⟩
        rw [hitl] at hrest
        cases hrest
    · exact ⟨v, rfl⟩

/-- C3 (confirmed): after a successful `upsert_items` call, every
`(source, sourceId)` key occurring in the input is represented by exactly
one stored row, and that row's mutable fields (`title`, `content`,
`metadata`, `tags`, `is_public`, `source_url`, `created_at`) are those of
the *last* input record with that key — last-write-wins within the batch
and against any previously stored row. -/
theorem upsert_last_write_wins (now : Nat) (store st : Store)
    (items : List RawItem) (n ex : Nat)
    (hnods : (store.map rowKey).Nodup)
    (h : upsert_items now store items = ⟨.ok (st, n), ex⟩)
    (it : RawItem) (hit : it ∈ items) (K : Key) (hK : itemKey it = some K) :
    ∃ itl, lastItemFor K items = some itl ∧
      st.countP (fun r => rowKey r = K) = 1 ∧
      (∀ r ∈ st, rowKey r = K →
        r.title = itl.title ∧ r.content = itl.content ∧ r.metadata = itl.metadata ∧
        r.tags = itl.tags ∧ r.is_public = itl.is_public ∧
        r.source_url = itl.source_url ∧ some r.created_at = itl.created_at) := by
  have hne : items ≠ [] := by
    intro hc
    subst hc
    simp at hit
  rcases lastItemFor_isSome hit hK with ⟨itl, hlast⟩
  rcases upsert_struct hne h with ⟨ps, _, _, _, hsome, _⟩
  rcases Option.isSome_iff_exists.mp (hsome K itl hlast) with ⟨p, hp⟩
  obtain ⟨hcount, hchar⟩ := upsert_row_char hnods hne h hlast hp
  refine ⟨itl, hlast, hcount, ?_⟩
  intro r hr hrK
  have hf := toPre_fields hp
  rcases hchar r hr hrK with ⟨r0, _, _, hre⟩ | ⟨_, hre⟩
  · subst hre
    exact ⟨hf.1, hf.2.1, hf.2.2.1, hf.2.2.2.1, hf.2.2.2.2.1,
      hf.2.2.2.2.2.1, hf.2.2.2.2.2.2.1⟩
  · subst hre
    exact ⟨hf.1, hf.2.1, hf.2.2.1, hf.2.2.2.1, hf.2.2.2.2.1,
      hf.2.2.2.2.2.1, hf.2.2.2.2.2.2.1⟩

theorem maskSynced_updRow_updRow (t1 t2 : Nat) (p : PreRow) (r : Row) :
    maskSynced (updRow t2 p (updRow t1 p r)) = maskSynced (updRow t1 p r) := rfl

theorem maskSynced_updRow_newRow (t1 t2 : Nat) (q : PreRow) :
    maskSynced (updRow t2 q (newRow t1 q)) = maskSynced (newRow t1 q) := rfl

/-- C9 (confirmed): upserting the same batch twice in succession yields the
same return value and a final row set identical to upserting it once up to
`synced_at` (masking `synced_at`, the two stores are equal). -/
theorem upsert_idempotent (now1 now2 : Nat) (store s1 : Store)
    (items : List RawItem) (n ex : Nat)
    (h1 : upsert_items now1 store items = ⟨.ok (s1, n), ex⟩) :
    ∃ s2 ex2, upsert_items now2 s1 items = ⟨.ok (s2, n), ex2⟩ ∧
      eraseSynced s2 = eraseSynced s1 := by
  by_cases hne : items = []
  · subst hne
    have h0 : upsert_items now1 store [] = ⟨.ok (store, 0), 0⟩ := upsert_items_empty ..
    rw [h0] at h1
    have hres := congrArg UpsertResult.result h1
    simp only at hres
    have h3 := Except.ok.inj hres
    injection h3 with hfst hsnd
    refine ⟨s1, 0, ?_, rfl⟩
    rw [← hsnd]
    exact upsert_items_empty ..
  · rcases upsert_items_ok_elim h1 with ⟨hnil, _⟩ | ⟨seen, ps, hd, hr, hst, hn⟩
    · exact absurd hnil hne
    · have hcons : ∀ q ∈ seen, itemKey q.2 = some q.1 :=
        dedupLoop_consistent hd (by intro q hq; simp at hq)
      have hnod : (ps.map keyOf).Nodup := by
        rw [resolveAll_keys hcons hr]
        exact dedupLoop_keysNodup hd (by simp)
      have hs1 : s1 = store.map (patchFn now1 ps) ++ (freshOnes store ps).map (newRow now1) := by
        rw [hst, foldl_applyOne_eq now1 ps store hnod]
      have h2 := @upsert_items_eq_of now2 s1 items seen ps hne hd hr
      refine ⟨ps.foldl (applyOne now2) s1,
        0 + (chunkList 2000 (seen.map (fun q => q.2))).length, ?_, ?_⟩
      · rw [h2, hn]
      · have hfresh : freshOnes s1 ps = [] := by
          unfold freshOnes
          rw [List.filter_eq_nil_iff]
          intro q hq
          simp only [Bool.not_eq_eq_eq_not, Bool.not_true, Bool.not_eq_false]
          rw [List.any_eq_true]
          by_cases hm : store.any (fun r => rowKey r = keyOf q)
          · rcases List.any_eq_true.mp hm with ⟨r0, hr0, hr0K⟩
            simp only [decide_eq_true_eq] at hr0K
            refine ⟨patchFn now1 ps r0, ?_, ?_⟩
            · rw [hs1]
              exact List.mem_append.mpr (Or.inl (List.mem_map.mpr ⟨r0, hr0, rfl⟩))
            · simp [rowKey_patchFn, hr0K]
          · have hqfresh : q ∈ freshOnes store ps := by
              refine List.mem_filter.mpr ⟨hq, ?_⟩
              simp only [Bool.not_eq_eq_eq_not, Bool.not_true]
              exact Bool.eq_false_iff.mpr hm
            refine ⟨newRow now1 q, ?_, ?_⟩
            · rw [hs1]
              exact List.mem_append.mpr (Or.inr (List.mem_map.mpr ⟨q, hqfresh, rfl⟩))
            · simp [rowKey_newRow]
        rw [foldl_applyOne_eq now2 ps s1 hnod, hfresh]
        simp only [List.map_nil, List.append_nil]
        unfold eraseSynced
        rw [List.map_map]
        refine List.map_congr_left ?_
        intro r hrs1
        rcases hfq : ps.find? (fun p => keyOf p = rowKey r) with _ | p
        · have : patchFn now2 ps r = r := by
            unfold patchFn
            rw [hfq]
          simp [Function.comp, this]
        · have hpmem : p ∈ ps := List.mem_of_find?_eq_some hfq
          have hpkey : keyOf p = rowKey r := by
            have := List.find?_some hfq
            simpa using this
          have hpatch2 : patchFn now2 ps r = updRow now2 p r := by
            unfold patchFn
            rw [hfq]
          rw [hs1] at hrs1
          rcases List.mem_append.mp hrs1 with hmem | hmem
          · rcases List.mem_map.mp hmem with ⟨r0, hr0, hr0e⟩
            have hkey0 : rowKey r0 = rowKey r := by
              rw [← hr0e, rowKey_patchFn]
            have hpatch1 : patchFn now1 ps r0 = updRow now1 p r0 := by
              unfold patchFn
              rw [hkey0, hfq]
            have hre : r = updRow now1 p r0 := by
              rw [← hr0e, hpatch1]
            show maskSynced (patchFn now2 ps r) = maskSynced r
            rw [hpatch2, hre]
            exact maskSynced_updRow_updRow now1 now2 p r0
          · rcases List.mem_map.mp hmem with ⟨q, hq, hqe⟩
            have hqps : q ∈ ps := (List.mem_filter.mp hq).1
            have hkeyq : keyOf q = rowKey r := by
              rw [← hqe, rowKey_newRow]
            have hqp : p = q := eq_of_same_key hnod hpmem hqps (by rw [hpkey, hkeyq])
            have hre : r = newRow now1 q := hqe.symm
            show maskSynced (patchFn now2 ps r) = maskSynced r
            rw [hpatch2, hre, hqp]
            exact maskSynced_updRow_newRow now1 now2 q

/-! ### Character-level facts about the ISO date grammar -/

theorem digitVal_isDigit {c : Char} {x : Nat} (h : digitVal c = some x) : c.isDigit := by
  unfold digitVal at h
  by_cases hd : c.isDigit
  · exact hd
  · rw [if_neg hd] at h
    cases h

theorem read2_chars {cs : List Char} {v : Nat} {rest : List Char}
    (h : read2 cs = some (v, rest)) :
    ∃ a b, cs = a :: b :: rest ∧ a.isDigit ∧ b.isDigit := by
  match cs with
  | [] => cases h
  | [a] => cases h
  | a :: b :: r =>
    simp only [read2] at h
    rcases ha : digitVal a with _ | x
    · rw [ha] at h; cases h
    · rw [ha] at h
      rcases hb : digitVal b with _ | y
      · rw [hb] at h; cases h
      · rw [hb] at h
        injection h with h1
        injection h1 with _ h2
        exact ⟨a, b, by rw [h2], digitVal_isDigit ha, digitVal_isDigit hb⟩

theorem read4_chars {cs : List Char} {v : Nat} {rest : List Char}
    (h : read4 cs = some (v, rest)) :
    ∃ a b c d, cs = a :: b :: c :: d :: rest ∧
      a.isDigit ∧ b.isDigit ∧ c.isDigit ∧ d.isDigit := by
  match cs with
  | [] => cases h
  | [a] => cases h
  | [a, b] => cases h
  | [a, b, c] => cases h
  | a :: b :: c :: d :: r =>
    simp only [read4] at h
    rcases ha : digitVal a with _ | x
    · rw [ha] at h; cases h
    · rw [ha] at h
      rcases hb : digitVal b with _ | y
      · rw [hb] at h; cases h
      · rw [hb] at h
        rcases hc : digitVal c with _ | z
        · rw [hc] at h; cases h
        · rw [hc] at h
          rcases hd : digitVal d with _ | w
          · rw [hd] at h; cases h
          · rw [hd] at h
            injection h with h1
            injection h1 with _ h2
            exact ⟨a, b, c, d, by rw [h2], digitVal_isDigit ha, digitVal_isDigit hb,
              digitVal_isDigit hc, digitVal_isDigit hd⟩

theorem expectChar_chars {c : Char} {cs rest : List Char}
    (h : expectChar c cs = some rest) : cs = c :: rest := by
  match cs with
  | [] => cases h
  | x :: r =>
    simp only [expectChar] at h
    by_cases hx : x = c
    · rw [if_pos hx] at h
      injection h with h1
      rw [hx, h1]
    · rw [if_neg hx] at h
      cases h

theorem isDigit_ne_T {c : Char} (h : c.isDigit) : c ≠ 'T' := by
  intro hc
  subst hc
  exact absurd h (by decide)

/-- `readDate` consumes exactly ten characters, none of which is `T`. -/
theorem readDate_chars {cs : List Char} {y m d : Nat} {rest : List Char}
    (h : readDate cs = some (y, m, d, rest)) :
    ∃ pre, cs = pre ++ rest ∧ pre.length = 10 ∧ 'T' ∉ pre := by
  unfold readDate at h
  rcases h4 : read4 cs with _ | yr
  · rw [h4] at h; cases h
  · rw [h4] at h
    simp only [Option.some_bind] at h
    rcases he1 : expectChar '-' yr.2 with _ | r2
    · rw [he1] at h; cases h
    · rw [he1] at h
      simp only [Option.some_bind] at h
      rcases h2a : read2 r2 with _ | mr
      · rw [h2a] at h; cases h
      · rw [h2a] at h
        simp only [Option.some_bind] at h
        rcases he2 : expectChar '-' mr.2 with _ | r4
        · rw [he2] at h; cases h
        · rw [he2] at h
          simp only [Option.some_bind] at h
          rcases h2b : read2 r4 with _ | dr
          · rw [h2b] at h; cases h
          · rw [h2b] at h
            simp only [Option.some_bind] at h
            by_cases hv : validDate yr.1 mr.1 dr.1
            · rw [if_pos hv] at h
              have h1 := Option.some.inj h
              have hrest : dr.2 = rest := congrArg (fun t => t.2.2.2) h1
              rcases read4_chars h4 with ⟨a1, a2, a3, a4, hcs, ha1, ha2, ha3, ha4⟩
              have hr1 := expectChar_chars he1
              rcases read2_chars h2a with ⟨b1, b2, hr2, hb1, hb2⟩
              have hr3 := expectChar_chars he2
              rcases read2_chars h2b with ⟨c1, c2, hr4, hc1, hc2⟩
              refine ⟨[a1, a2, a3, a4, '-', b1, b2, '-', c1, c2], ?_, rfl, ?_⟩
              · rw [hcs, hr1, hr2, hr3, hr4, hrest]
                rfl
              · intro hmem
                simp only [List.mem_cons] at hmem
                rcases hmem with h | h | h | h | h | h | h | h | h | h | h
                · exact isDigit_ne_T ha1 h.symm
                · exact isDigit_ne_T ha2 h.symm
                · exact isDigit_ne_T ha3 h.symm
                · exact isDigit_ne_T ha4 h.symm
                · cases h
                · exact isDigit_ne_T hb1 h.symm
                · exact isDigit_ne_T hb2 h.symm
                · cases h
                · exact isDigit_ne_T hc1 h.symm
                · exact isDigit_ne_T hc2 h.symm
                · simp at h
            · rw [if_neg hv] at h
              cases h

theorem append_eq_append_of_not_mem {c : Char} : ∀ {a b u v : List Char},
    a ++ c :: u = b ++ c :: v → c ∉ a → c ∉ b → a = b ∧ u = v := by
  intro a
  induction a with
  | nil =>
    intro b u v h ha hb
    cases b with
    | nil =>
      simp only [List.nil_append] at h
      exact ⟨rfl, List.cons.inj h |>.2⟩
    | cons x b' =>
      simp only [List.nil_append, List.cons_append] at h
      have hx : c = x := (List.cons.inj h).1
      exfalso
      apply hb
      rw [hx]
      exact List.mem_cons_self x b'
  | cons x a' ih =>
    intro b u v h ha hb
    cases b with
    | nil =>
      simp only [List.cons_append, List.nil_append] at h
      have hx : x = c := (List.cons.inj h).1
      exfalso
      apply ha
      rw [hx]
      exact List.mem_cons_self c a'
    | cons y b' =>
      simp only [List.cons_append] at h
      have hx : x = y := (List.cons.inj h).1
      have htail := (List.cons.inj h).2
      have ha' : c ∉ a' := fun hc => ha (List.mem_cons_of_mem x hc)
      have hb' : c ∉ b' := fun hc => hb (List.mem_cons_of_mem y hc)
      rcases ih htail ha' hb' with ⟨h1, h2⟩
      exact ⟨by rw [hx, h1], h2⟩

theorem not_T_mem_of_hasT_false {s : String} (h : hasT s = false) : 'T' ∉ s.data := by
  intro hmem
  have h2 : hasT s = true := List.any_eq_true.mpr ⟨'T', hmem, rfl⟩
  rw [h] at h2
  cases h2

/-- A date-only string (no `T`), extended by the code with
`"T00:00:00+00:00"`, can only parse to midnight UTC. -/
theorem parse_dateonly_midnight {s : String} (hnoT : hasT s = false) {dt : PyDateTime}
    (h : fromisoformat (s ++ "T00:00:00+00:00") = some dt) :
    dt.hour = 0 ∧ dt.minute = 0 ∧ dt.second = 0 ∧ dt.tzOffsetMinutes = some 0 := by
  unfold fromisoformat at h
  rcases hdm : readDate (s ++ "T00:00:00+00:00").data with _ | ymd
  · rw [hdm] at h; cases h
  · rw [hdm] at h
    simp only [Option.some_bind] at h
    rcases readDate_chars hdm with ⟨pre, hsplit, _, hpreT⟩
    rw [String.data_append] at hsplit
    have hsfx : ("T00:00:00+00:00").data = 'T' :: ("00:00:00+00:00").data := rfl
    rw [hsfx] at hsplit
    have hTs : 'T' ∉ s.data := not_T_mem_of_hasT_false hnoT
    split at h
    · -- the remainder after the date was empty: impossible, the appended
      -- suffix contributes a `T` that would have to sit inside `pre`
      rename_i heq
      exfalso
      rw [heq, List.append_nil] at hsplit
      exact hpreT (by
        rw [← hsplit]
        exact List.mem_append.mpr (Or.inr (List.mem_cons_self _ _)))
    · -- the remainder starts with `T`: it is exactly the appended suffix
      rename_i r1 heq
      rw [heq] at hsplit
      rcases append_eq_append_of_not_mem hsplit hTs hpreT with ⟨_, htail⟩
      rw [← htail] at h
      have ht : readTime ("00:00:00+00:00").data =
          some (0, 0, 0, ('+' :: '0' :: '0' :: ':' :: '0' :: '0' :: [])) := rfl
      rw [ht] at h
      simp only [Option.some_bind] at h
      have ho : readOffset ('+' :: '0' :: '0' :: ':' :: '0' :: '0' :: []) =
          some (some 0) := rfl
      rw [ho] at h
      simp only [Option.some_bind] at h
      have hdt := Option.some.inj h
      rw [← hdt]
      exact ⟨rfl, rfl, rfl, rfl⟩
    · cases h


/-- C6 (confirmed): webhook date handling.  A date string containing a time
component (the `T` separator the code tests for) is parsed as a full
timestamp after normalizing a trailing `Z`; a date-only string is extended
to `T00:00:00+00:00`, so whenever it parses at all it denotes midnight UTC;
a metric whose date fails to parse is skipped while the rest of the batch is
still processed; concretely, `2026-02-21T10:30:00Z` is stored at exactly
that instant and `2026-02-21` at `2026-02-21T00:00:00Z`. -/
theorem webhook_date_parsing :
    (∀ m rest, parseMetricDate m = none →
        buildWebhookItems (m :: rest) = buildWebhookItems rest) ∧
    (∀ m rest dt, parseMetricDate m = some dt →
        buildWebhookItems (m :: rest) = metricItem m dt :: buildWebhookItems rest ∧
        (metricItem m dt).created_at = some dt) ∧
    (∀ m s, m.mdate = some s → hasT s = true →
        parseMetricDate m = fromisoformat (replaceZ s)) ∧
    (∀ m s, m.mdate = some s → hasT s = false →
        parseMetricDate m = fromisoformat (s ++ "T00:00:00+00:00")) ∧
    (∀ m s dt, m.mdate = some s → hasT s = false → parseMetricDate m = some dt →
        dt.hour = 0 ∧ dt.minute = 0 ∧ dt.second = 0 ∧ dt.tzOffsetMinutes = some 0) ∧
    (∀ m, m.mdate = some "2026-02-21T10:30:00Z" →
        parseMetricDate m = some ⟨2026, 2, 21, 10, 30, 0, some 0⟩) ∧
    (∀ m, m.mdate = some "2026-02-21" →
        parseMetricDate m = some ⟨2026, 2, 21, 0, 0, 0, some 0⟩) := by
  refine ⟨?_, ?_, ?_, ?_, ?_, ?_, ?_⟩
  · intro m rest h
    simp only [buildWebhookItems, h]
  · intro m rest dt h
    exact ⟨by simp only [buildWebhookItems, h], rfl⟩
  · intro m s hm hT
    unfold parseMetricDate
    rw [hm]
    show (if hasT s then fromisoformat (replaceZ s)
      else fromisoformat (s ++ "T00:00:00+00:00")) = fromisoformat (replaceZ s)
    rw [hT]
    rfl
  · intro m s hm hT
    unfold parseMetricDate
    rw [hm]
    show (if hasT s then fromisoformat (replaceZ s)
      else fromisoformat (s ++ "T00:00:00+00:00")) = fromisoformat (s ++ "T00:00:00+00:00")
    rw [hT]
    rfl
  · intro m s dt hm hT h
    refine parse_dateonly_midnight hT ?_
    rw [← h]
    unfold parseMetricDate
    rw [hm]
    show fromisoformat (s ++ "T00:00:00+00:00") =
      (if hasT s then fromisoformat (replaceZ s)
        else fromisoformat (s ++ "T00:00:00+00:00"))
    rw [hT]
    rfl
  · intro m hm
    unfold parseMetricDate
    rw [hm]
    rfl
  · intro m hm
    unfold parseMetricDate
    rw [hm]
    rfl

theorem toPre_metricItem_isSome (m : Metric) (dt : PyDateTime) :
    (toPre (metricItem m dt)).isSome := rfl

theorem mem_buildWebhookItems {it : RawItem} : ∀ {ms : List Metric},
    it ∈ buildWebhookItems ms → ∃ m dt, it = metricItem m dt := by
  intro ms
  induction ms with
  | nil => intro h; simp [buildWebhookItems] at h
  | cons m rest ih =>
    intro h
    simp only [buildWebhookItems] at h
    rcases hp : parseMetricDate m with _ | dt
    · rw [hp] at h
      exact ih h
    · rw [hp] at h
      rcases List.mem_cons.mp h with h1 | h1
      · exact ⟨m, dt, h1⟩
      · exact ih h1

theorem buildWebhookItems_length (ms : List Metric) :
    (buildWebhookItems ms).length = ms.countP (fun m => (parseMetricDate m).isSome) := by
  induction ms with
  | nil => rfl
  | cons m rest ih =>
    simp only [buildWebhookItems, List.countP_cons]
    rcases hp : parseMetricDate m with _ | dt
    · simp [hp, ih]
    · simp [hp, ih]

/-- C10 (confirmed): `process_webhook_data` returns the number of input
metrics whose date parsed (each one contributes exactly one record to the
upsert batch, duplicates included, and `upsert_items` returns the pre-dedup
batch length), i.e. `n - k` for `n` metrics of which `k` are unparseable. -/
theorem webhook_processed_count (now : Nat) (store : Store) (metrics : List Metric) :
    resultCount (process_webhook_data now store metrics) =
      some (metrics.countP (fun m => (parseMetricDate m).isSome)) ∧
    metrics.countP (fun m => (parseMetricDate m).isSome) =
      metrics.length - metrics.countP (fun m => (parseMetricDate m).isNone) := by
  constructor
  · unfold process_webhook_data
    have hvalid : ∀ it ∈ buildWebhookItems metrics, (toPre it).isSome := by
      intro it hit
      rcases mem_buildWebhookItems hit with ⟨m, dt, he⟩
      rw [he]
      exact toPre_metricItem_isSome m dt
    rw [upsert_items_ok_of_valid now store _ hvalid, buildWebhookItems_length]
  · have h := List.length_eq_countP_add_countP
      (fun m => (parseMetricDate m).isSome) metrics
    have h2 : metrics.countP (fun a => decide ¬((parseMetricDate a).isSome = true))
        = metrics.countP (fun m => (parseMetricDate m).isNone) := by
      refine List.countP_congr ?_
      intro m _
      simp [Option.not_isSome_iff_eq_none, Option.isNone_iff_eq_none]
    rw [h2] at h
    omega

/-! ## Witnesses: the hypothesised claim theorems at concrete inputs -/

theorem run_error_sync_state_witness :
    collectBoom runningSt7 = .error (runningSt7, "boom") ∧
    (∃ r, (run collectBoom "svc" 1 2 st7).sync = some r ∧
      r.status = "error" ∧
      r.error_message = some (pyTruncate "boom" 500) ∧
      (pyTruncate "boom" 500).length ≤ 500 ∧
      r.items_synced = 0) :=
  ⟨rfl, run_error_sync_state collectBoom "svc" 1 2 st7 runningSt7 "boom" rfl⟩

theorem run_absorbs_collect_exception_witness :
    collectBoom runningStEmpty = .error (runningStEmpty, "boom") ∧
    (∃ r, (run collectBoom "svc" 3 4 stEmpty).sync = some r ∧
      r.status = "error" ∧
      r.error_message = some (pyTruncate "boom" 500) ∧
      (pyTruncate "boom" 500).length ≤ 500) :=
  ⟨rfl, run_absorbs_collect_exception collectBoom "svc" 3 4 stEmpty runningStEmpty "boom" rfl⟩

theorem upsert_syncedAt_write_time_witness :
    upsert_items 11 ([] : Store) [sampleItem "A"] = ⟨.ok ([sampleRow "A" 11], 1), 1⟩ ∧
    (∀ r ∈ ([sampleRow "A" 11] : Store), rowKey r = ("svc", "id1") →
      ((∃ r0 ∈ ([] : Store), rowKey r0 = ("svc", "id1")) → r.synced_at = 11) ∧
      ((∀ r0 ∈ ([] : Store), rowKey r0 ≠ ("svc", "id1")) →
        (sampleItem "A").synced_at = none → r.synced_at = 11)) :=
  ⟨rfl, upsert_syncedAt_write_time 11 [] [sampleRow "A" 11] [sampleItem "A"] 1 1
    (by simp) rfl ("svc", "id1") (sampleItem "A") rfl⟩

theorem upsert_last_write_wins_witness :
    upsert_items 11 ([] : Store) [sampleItem "A", sampleItem "B"]
        = ⟨.ok ([sampleRow "B" 11], 2), 1⟩ ∧
    (∃ itl, lastItemFor ("svc", "id1") [sampleItem "A", sampleItem "B"] = some itl ∧
      ([sampleRow "B" 11] : Store).countP (fun r => rowKey r = ("svc", "id1")) = 1 ∧
      (∀ r ∈ ([sampleRow "B" 11] : Store), rowKey r = ("svc", "id1") →
        r.title = itl.title ∧ r.content = itl.content ∧ r.metadata = itl.metadata ∧
        r.tags = itl.tags ∧ r.is_public = itl.is_public ∧
        r.source_url = itl.source_url ∧ some r.created_at = itl.created_at)) :=
  ⟨rfl, upsert_last_write_wins 11 [] [sampleRow "B" 11] [sampleItem "A", sampleItem "B"]
    2 1 (by simp) rfl (sampleItem "A") (by simp) ("svc", "id1") rfl⟩

theorem upsert_returns_prededup_count_witness :
    upsert_items 3 ([] : Store) [sampleItem "A"] = ⟨.ok ([sampleRow "A" 3], 1), 1⟩ ∧
    (1 : Nat) = [sampleItem "A"].length :=
  ⟨rfl, upsert_returns_prededup_count.2.1 3 [] [sampleItem "A"] [sampleRow "A" 3] 1 1 rfl⟩

theorem upsert_missing_identity_fails_fast_witness :
    (∃ it ∈ [noSourceItem], itemKey it = none) ∧
    ((upsert_items 0 ([] : Store) [noSourceItem]).result = .error .keyError ∧
     (upsert_items 0 ([] : Store) [noSourceItem]).execs = 0) :=
  ⟨⟨noSourceItem, by simp, rfl⟩,
    upsert_missing_identity_fails_fast 0 [] [noSourceItem] ⟨noSourceItem, by simp, rfl⟩⟩

theorem upsert_idempotent_witness :
    upsert_items 11 ([] : Store) [sampleItem "A"] = ⟨.ok ([sampleRow "A" 11], 1), 1⟩ ∧
    (∃ s2 ex2, upsert_items 22 [sampleRow "A" 11] [sampleItem "A"] = ⟨.ok (s2, 1), ex2⟩ ∧
      eraseSynced s2 = eraseSynced [sampleRow "A" 11]) :=
  ⟨rfl, upsert_idempotent 11 22 [] [sampleRow "A" 11] [sampleItem "A"] 1 1 rfl⟩

theorem webhook_date_parsing_witness :
    parseMetricDate badMetric = none ∧
    buildWebhookItems (badMetric :: [goodMetric]) = buildWebhookItems [goodMetric] :=
  ⟨rfl, webhook_date_parsing.1 badMetric [goodMetric] rfl⟩

end PersonalHub
